import Mathlib

/-!
Verification of the Local Package Dependency Visualizer.

This file gives a shallow embedding, in Lean 4, of the parts of the Python
source that the verified properties talk about:

* `src/parser/graph_builder.py`  — the dependency-graph store (`GraphState`,
  `add_node`, `add_edge`, the read-only queries);
* `src/cycle_detector.py`        — the depth-first cycle enumeration;
* `src/dead_code_detector.py`    — the undirected reachability worklist;
* `src/parser/import_resolver.py`— `resolve_import` over a model file system;
* `src/parser/ast_parser.py`     — the `parse_file` cache discipline;
* `src/parser/dynamic_import_detector.py` — the dynamic-import scan;
* `src/split_suggester.py`       — the split heuristics.

Python dictionaries are modelled as insertion-ordered association lists,
Python sets of strings as `Finset String` (plus an explicit iteration-order
parameter wherever the source iterates over a set), and file paths as
strings or as lists of path components.  Machine-level details (hashing,
interpreter object identity) are outside the model except where a claim is
about them, in which case the relevant distinction is modelled explicitly
(see the parse-cache section).
-/

namespace DepViz

/-- Python `dict` lookup `d.get(k)` over an insertion-ordered association
list: the first binding of the key wins (our dicts bind each key once). -/
def lookupD {α : Type} : List (String × α) → String → Option α
  | [], _ => none
  | (k0, v) :: d, k => if k0 = k then some v else lookupD d k

/-- Python `dict` update `d[k] = v`: replace the binding in place if the key
is present, otherwise append it (insertion order is preserved). -/
def setD {α : Type} : List (String × α) → String → α → List (String × α)
  | [], k, v => [(k, v)]
  | (k0, v0) :: d, k, v =>
      if k0 = k then (k0, v) :: d else (k0, v0) :: setD d k v

/-- Python `d.get(k, dflt)`. -/
def getD {α : Type} (d : List (String × α)) (k : String) (dflt : α) : α :=
  (lookupD d k).getD dflt

theorem lookupD_setD {α : Type} (d : List (String × α)) (k k' : String) (v : α) :
    lookupD (setD d k v) k' = if k = k' then some v else lookupD d k' := by
  induction d with
  | nil =>
      by_cases h : k = k' <;> simp [setD, lookupD, h]
  | cons p d ih =>
      obtain ⟨k0, v0⟩ := p
      by_cases h0 : k0 = k
      · subst h0
        by_cases h : k0 = k' <;> simp [setD, lookupD, h]
      · simp only [setD, if_neg h0, lookupD]
        by_cases h : k0 = k'
        · subst h
          have : ¬ k = k0 := fun he => h0 he.symm
          simp [this, lookupD]
        · simp [h, ih]

theorem getD_setD {α : Type} (d : List (String × α)) (k k' : String) (v dflt : α) :
    getD (setD d k v) k' dflt = if k = k' then v else getD d k' dflt := by
  by_cases h : k = k' <;> simp [getD, lookupD_setD, h]

/-! ## Graph builder (`src/parser/graph_builder.py`)

The metadata dictionaries attached to nodes and edges are inert for every
property below, so they are modelled by an arbitrary type `M` with a
distinguished element standing for the empty dict `{}`.  `None` arguments
are modelled by `Option.none`; a passed-but-empty dict is falsy in Python
and behaves exactly like `None` in `add_node`, so it is also `none`.
Path normalization `_normalize_path` (`str(Path(p).resolve())`) is an
abstract function `norm`; `Path.resolve` is idempotent, which enters the
theorems as the hypothesis `norm (norm s) = norm s`. -/

/-- State of a `GraphBuilder`: `nodes` is the Python set `self.nodes`,
`edges` the list `self.edges`, `incoming`/`outgoing` the two
`defaultdict(set)` adjacency indices, and `node_metadata` the per-node
metadata dict. -/
structure GraphState (M : Type) where
  nodes : Finset String
  edges : List (String × String × M)
  incoming : List (String × Finset String)
  outgoing : List (String × Finset String)
  node_metadata : List (String × M)

/-- The freshly constructed graph (`GraphBuilder.__init__`). -/
def emptyGraph (M : Type) : GraphState M := ⟨∅, [], [], [], []⟩

/-- Source `GraphBuilder.add_node`: normalize the path, add it to the node set,
and store metadata (a truthy dict overwrites; otherwise an empty dict is
stored only if the node had no metadata yet). -/
def add_node {M : Type} (norm : String → String) (em : M)
    (st : GraphState M) (p : String) (md : Option M) : GraphState M :=
  let n := norm p
  { st with
    nodes := insert n st.nodes
    node_metadata :=
      match md with
      | some m => setD st.node_metadata n m
      | none =>
          match lookupD st.node_metadata n with
          | some _ => st.node_metadata
          | none => setD st.node_metadata n em }

/-- Source `GraphBuilder.add_edge`: normalize both endpoints, add any missing
endpoint as a node, append the edge (with `metadata or {}`), and update
both adjacency indices. -/
def add_edge {M : Type} (norm : String → String) (em : M)
    (st : GraphState M) (u v : String) (md : Option M) : GraphState M :=
  let un := norm u
  let vn := norm v
  let st1 := if un ∈ st.nodes then st else add_node norm em st un none
  let st2 := if vn ∈ st1.nodes then st1 else add_node norm em st1 vn none
  { st2 with
    edges := st2.edges ++ [(un, vn, md.getD em)]
    incoming := setD st2.incoming vn (insert un (getD st2.incoming vn ∅))
    outgoing := setD st2.outgoing un (insert vn (getD st2.outgoing un ∅)) }

/-- Source `GraphBuilder.get_dependencies`: `self.outgoing.get(normalized, set())`. -/
def get_dependencies {M : Type} (norm : String → String)
    (st : GraphState M) (p : String) : Finset String :=
  getD st.outgoing (norm p) ∅

/-- Source `GraphBuilder.get_dependents`: `self.incoming.get(normalized, set())`. -/
def get_dependents {M : Type} (norm : String → String)
    (st : GraphState M) (p : String) : Finset String :=
  getD st.incoming (norm p) ∅

/-- Source `GraphBuilder.get_metadata`: `self.node_metadata.get(normalized, {})`. -/
def get_metadata {M : Type} (norm : String → String) (em : M)
    (st : GraphState M) (p : String) : M :=
  (lookupD st.node_metadata (norm p)).getD em

/-- Query `get_dependencies` paired with the state after the call.  The source
reads through non-mutating `dict.get` (never through `defaultdict`
indexing, which would insert an entry), so the state is returned as is. -/
def get_dependenciesS {M : Type} (norm : String → String)
    (st : GraphState M) (p : String) : Finset String × GraphState M :=
  (get_dependencies norm st p, st)

/-- Query `get_dependents` paired with the (unchanged) state after the call. -/
def get_dependentsS {M : Type} (norm : String → String)
    (st : GraphState M) (p : String) : Finset String × GraphState M :=
  (get_dependents norm st p, st)

/-- Query `get_metadata` paired with the (unchanged) state after the call. -/
def get_metadataS {M : Type} (norm : String → String) (em : M)
    (st : GraphState M) (p : String) : M × GraphState M :=
  (get_metadata norm em st p, st)

/-- A mutation of the graph: one `add_node` or `add_edge` call. -/
inductive GOp (M : Type) where
  | addN (p : String) (md : Option M)
  | addE (u v : String) (md : Option M)

/-- Replay a sequence of mutations on the freshly constructed graph. -/
def applyOps {M : Type} (norm : String → String) (em : M)
    (ops : List (GOp M)) : GraphState M :=
  ops.foldl
    (fun st op =>
      match op with
      | .addN p md => add_node norm em st p md
      | .addE u v md => add_edge norm em st u v md)
    (emptyGraph M)

/-- Invariant tying the edge list, the node set, the two adjacency indices
and the metadata dict of a `GraphState` together. -/
structure GInv {M : Type} (norm : String → String) (st : GraphState M) : Prop where
  edgeNodes : ∀ e ∈ st.edges, e.1 ∈ st.nodes ∧ e.2.1 ∈ st.nodes
  edgeAdj : ∀ e ∈ st.edges,
    e.2.1 ∈ getD st.outgoing e.1 ∅ ∧ e.1 ∈ getD st.incoming e.2.1 ∅
  outEdge : ∀ a b, b ∈ getD st.outgoing a ∅ → ∃ m, (a, b, m) ∈ st.edges
  inEdge : ∀ a b, a ∈ getD st.incoming b ∅ → ∃ m, (a, b, m) ∈ st.edges
  nodesNorm : ∀ n ∈ st.nodes, norm n = n
  outKeys : ∀ k, lookupD st.outgoing k ≠ none → k ∈ st.nodes
  inKeys : ∀ k, lookupD st.incoming k ≠ none → k ∈ st.nodes
  mdKeys : ∀ k, lookupD st.node_metadata k ≠ none → k ∈ st.nodes

theorem ginv_empty {M : Type} (norm : String → String) :
    GInv norm (emptyGraph M) := by
  constructor <;> simp [emptyGraph, lookupD, getD]

theorem add_node_nodes {M : Type} (norm : String → String) (em : M)
    (st : GraphState M) (p : String) (md : Option M) :
    (add_node norm em st p md).nodes = insert (norm p) st.nodes := rfl

theorem add_node_edges {M : Type} (norm : String → String) (em : M)
    (st : GraphState M) (p : String) (md : Option M) :
    (add_node norm em st p md).edges = st.edges := rfl

theorem add_node_outgoing {M : Type} (norm : String → String) (em : M)
    (st : GraphState M) (p : String) (md : Option M) :
    (add_node norm em st p md).outgoing = st.outgoing := rfl

theorem add_node_incoming {M : Type} (norm : String → String) (em : M)
    (st : GraphState M) (p : String) (md : Option M) :
    (add_node norm em st p md).incoming = st.incoming := rfl

theorem ginv_add_node {M : Type} {norm : String → String} {em : M}
    {st : GraphState M} (hnorm : ∀ s, norm (norm s) = norm s)
    (h : GInv norm st) (p : String) (md : Option M) :
    GInv norm (add_node norm em st p md) := by
  constructor
  · intro e he
    exact ⟨Finset.mem_insert_of_mem (h.edgeNodes e he).1,
           Finset.mem_insert_of_mem (h.edgeNodes e he).2⟩
  · intro e he
    exact h.edgeAdj e he
  · exact h.outEdge
  · exact h.inEdge
  · intro n hn
    rcases Finset.mem_insert.mp hn with h1 | h1
    · rw [h1]; exact hnorm p
    · exact h.nodesNorm n h1
  · intro k hk
    exact Finset.mem_insert_of_mem (h.outKeys k hk)
  · intro k hk
    exact Finset.mem_insert_of_mem (h.inKeys k hk)
  · intro k hk
    show k ∈ insert (norm p) st.nodes
    simp only [add_node] at hk
    rcases md with _ | m
    · rcases hmd : lookupD st.node_metadata (norm p) with _ | m0
      · rw [hmd] at hk
        rw [lookupD_setD] at hk
        by_cases hkp : norm p = k
        · rw [hkp.symm]; exact Finset.mem_insert_self _ _
        · rw [if_neg hkp] at hk
          exact Finset.mem_insert_of_mem (h.mdKeys k hk)
      · rw [hmd] at hk
        exact Finset.mem_insert_of_mem (h.mdKeys k hk)
    · rw [lookupD_setD] at hk
      by_cases hkp : norm p = k
      · rw [hkp.symm]; exact Finset.mem_insert_self _ _
      · rw [if_neg hkp] at hk
        exact Finset.mem_insert_of_mem (h.mdKeys k hk)

theorem ginv_add_edge {M : Type} {norm : String → String} {em : M}
    {st : GraphState M} (hnorm : ∀ s, norm (norm s) = norm s)
    (h : GInv norm st) (u v : String) (md : Option M) :
    GInv norm (add_edge norm em st u v md) := by
  simp only [add_edge]
  set un := norm u with hun
  set vn := norm v with hvn
  set st1 := if un ∈ st.nodes then st else add_node norm em st un none with hst1
  have h1 : GInv norm st1 := by
    rw [hst1]; split
    · exact h
    · exact ginv_add_node hnorm h un none
  have hmem1 : un ∈ st1.nodes := by
    rw [hst1]; split
    · assumption
    · rw [add_node_nodes]
      have : norm un = un := by rw [hun, hnorm]
      rw [this]
      exact Finset.mem_insert_self _ _
  set st2 := if vn ∈ st1.nodes then st1 else add_node norm em st1 vn none with hst2
  have h2 : GInv norm st2 := by
    rw [hst2]; split
    · exact h1
    · exact ginv_add_node hnorm h1 vn none
  have hmemu : un ∈ st2.nodes := by
    rw [hst2]; split
    · exact hmem1
    · rw [add_node_nodes]; exact Finset.mem_insert_of_mem hmem1
  have hmemv : vn ∈ st2.nodes := by
    rw [hst2]; split
    · assumption
    · rw [add_node_nodes]
      have : norm vn = vn := by rw [hvn, hnorm]
      rw [this]
      exact Finset.mem_insert_self _ _
  constructor
  · intro e he
    rcases List.mem_append.mp he with h1e | h1e
    · exact h2.edgeNodes e h1e
    · rcases List.mem_singleton.mp h1e with rfl
      exact ⟨hmemu, hmemv⟩
  · intro e he
    rcases List.mem_append.mp he with h1e | h1e
    · obtain ⟨ho, hi⟩ := h2.edgeAdj e h1e
      constructor
      · rw [getD_setD]
        split
        · next heq =>
            rw [← heq] at ho
            exact Finset.mem_insert_of_mem ho
        · exact ho
      · rw [getD_setD]
        split
        · next heq =>
            rw [← heq] at hi
            exact Finset.mem_insert_of_mem hi
        · exact hi
    · rcases List.mem_singleton.mp h1e with rfl
      constructor
      · rw [getD_setD, if_pos rfl]
        exact Finset.mem_insert_self _ _
      · rw [getD_setD, if_pos rfl]
        exact Finset.mem_insert_self _ _
  · intro a b hb
    rw [getD_setD] at hb
    by_cases ha : un = a
    · rw [if_pos ha] at hb
      rcases Finset.mem_insert.mp hb with rfl | hb
      · exact ⟨md.getD em, by rw [← ha]; exact List.mem_append_right _ (List.mem_singleton.mpr rfl)⟩
      · obtain ⟨m, hm⟩ := h2.outEdge a b (by rw [← ha]; exact hb)
        exact ⟨m, List.mem_append_left _ hm⟩
    · rw [if_neg ha] at hb
      obtain ⟨m, hm⟩ := h2.outEdge a b hb
      exact ⟨m, List.mem_append_left _ hm⟩
  · intro a b hb
    rw [getD_setD] at hb
    by_cases hbv : vn = b
    · rw [if_pos hbv] at hb
      rcases Finset.mem_insert.mp hb with rfl | hb
      · exact ⟨md.getD em, by rw [← hbv]; exact List.mem_append_right _ (List.mem_singleton.mpr rfl)⟩
      · obtain ⟨m, hm⟩ := h2.inEdge a b (by rw [← hbv]; exact hb)
        exact ⟨m, List.mem_append_left _ hm⟩
    · rw [if_neg hbv] at hb
      obtain ⟨m, hm⟩ := h2.inEdge a b hb
      exact ⟨m, List.mem_append_left _ hm⟩
  · exact h2.nodesNorm
  · intro k hk
    rw [lookupD_setD] at hk
    by_cases hku : un = k
    · rw [← hku]; exact hmemu
    · rw [if_neg hku] at hk
      exact h2.outKeys k hk
  · intro k hk
    rw [lookupD_setD] at hk
    by_cases hkv : vn = k
    · rw [← hkv]; exact hmemv
    · rw [if_neg hkv] at hk
      exact h2.inKeys k hk
  · exact h2.mdKeys

theorem ginv_applyOps {M : Type} (em : M) (norm : String → String)
    (hnorm : ∀ s, norm (norm s) = norm s) (ops : List (GOp M)) :
    GInv norm (applyOps norm em ops) := by
  suffices h : ∀ (st : GraphState M), GInv norm st →
      GInv norm (ops.foldl
        (fun st op =>
          match op with
          | .addN p md => add_node norm em st p md
          | .addE u v md => add_edge norm em st u v md) st) by
    exact h (emptyGraph M) (ginv_empty norm)
  induction ops with
  | nil => intro st hst; exact hst
  | cons op rest ih =>
      intro st hst
      rcases op with ⟨p, md⟩ | ⟨u, v, md⟩
      · exact ih _ (ginv_add_node hnorm hst p md)
      · exact ih _ (ginv_add_edge hnorm hst u v md)

/-- C3: after any sequence of `add_node`/`add_edge` operations, every edge
`(u, v, _)` of `E` has both endpoints in `V`, `v ∈ outgoing[u]` and
`u ∈ incoming[v]`; conversely every adjacency entry is witnessed by an edge
of `E`; and for all nodes `u`, `f` of the graph,
`f ∈ dependencies(u) ↔ u ∈ dependents(f)`.  The hypothesis on `norm`
records that `Path.resolve` is idempotent. -/
theorem graph_adjacency_invariant {M : Type} (em : M) (norm : String → String)
    (hnorm : ∀ s, norm (norm s) = norm s) (ops : List (GOp M)) :
    (∀ e ∈ (applyOps norm em ops).edges,
        e.1 ∈ (applyOps norm em ops).nodes ∧ e.2.1 ∈ (applyOps norm em ops).nodes ∧
        e.2.1 ∈ getD (applyOps norm em ops).outgoing e.1 ∅ ∧
        e.1 ∈ getD (applyOps norm em ops).incoming e.2.1 ∅) ∧
    (∀ a b, b ∈ getD (applyOps norm em ops).outgoing a ∅ →
        ∃ m, (a, b, m) ∈ (applyOps norm em ops).edges) ∧
    (∀ a b, a ∈ getD (applyOps norm em ops).incoming b ∅ →
        ∃ m, (a, b, m) ∈ (applyOps norm em ops).edges) ∧
    (∀ u f, u ∈ (applyOps norm em ops).nodes → f ∈ (applyOps norm em ops).nodes →
        (f ∈ get_dependencies norm (applyOps norm em ops) u ↔
         u ∈ get_dependents norm (applyOps norm em ops) f)) := by
  have hinv := ginv_applyOps em norm hnorm ops
  set st := applyOps norm em ops
  refine ⟨?_, hinv.outEdge, hinv.inEdge, ?_⟩
  · intro e he
    exact ⟨(hinv.edgeNodes e he).1, (hinv.edgeNodes e he).2,
           (hinv.edgeAdj e he).1, (hinv.edgeAdj e he).2⟩
  · intro u f hu hf
    have hnu : norm u = u := hinv.nodesNorm u hu
    have hnf : norm f = f := hinv.nodesNorm f hf
    unfold get_dependencies get_dependents
    rw [hnu, hnf]
    constructor
    · intro hdep
      obtain ⟨m, hm⟩ := hinv.outEdge u f hdep
      exact (hinv.edgeAdj _ hm).2
    · intro hdep
      obtain ⟨m, hm⟩ := hinv.inEdge u f hdep
      exact (hinv.edgeAdj _ hm).1

/-- Witness for C3 at a concrete graph (one edge `a → b`, `norm = id`). -/
theorem graph_adjacency_invariant_witness :
    ("b" ∈ get_dependencies id (applyOps id () [GOp.addE "a" "b" none]) "a" ↔
     "a" ∈ get_dependents id (applyOps id () [GOp.addE "a" "b" none]) "b") :=
  (graph_adjacency_invariant () id (fun _ => rfl) [GOp.addE "a" "b" none]).2.2.2
    "a" "b" (by decide) (by decide)

/-- C10: querying `get_dependencies`, `get_dependents` or `get_metadata` at
a path whose normal form is not a node returns the empty set (resp. the
empty metadata dict) and leaves the graph state unchanged — the source
reads through non-mutating `dict.get`, never through `defaultdict`
indexing. -/
theorem queries_on_non_nodes {M : Type} (em : M) (norm : String → String)
    (hnorm : ∀ s, norm (norm s) = norm s) (ops : List (GOp M)) (p : String)
    (hp : norm p ∉ (applyOps norm em ops).nodes) :
    get_dependencies norm (applyOps norm em ops) p = ∅ ∧
    get_dependents norm (applyOps norm em ops) p = ∅ ∧
    get_metadata norm em (applyOps norm em ops) p = em ∧
    get_dependenciesS norm (applyOps norm em ops) p = (∅, applyOps norm em ops) ∧
    get_dependentsS norm (applyOps norm em ops) p = (∅, applyOps norm em ops) ∧
    get_metadataS norm em (applyOps norm em ops) p = (em, applyOps norm em ops) := by
  have hinv := ginv_applyOps em norm hnorm ops
  set st := applyOps norm em ops
  have hout : lookupD st.outgoing (norm p) = none := by
    by_contra hcon
    exact hp (hinv.outKeys _ hcon)
  have hin : lookupD st.incoming (norm p) = none := by
    by_contra hcon
    exact hp (hinv.inKeys _ hcon)
  have hmd : lookupD st.node_metadata (norm p) = none := by
    by_contra hcon
    exact hp (hinv.mdKeys _ hcon)
  have h1 : get_dependencies norm st p = ∅ := by
    unfold get_dependencies getD; rw [hout]; rfl
  have h2 : get_dependents norm st p = ∅ := by
    unfold get_dependents getD; rw [hin]; rfl
  have h3 : get_metadata norm em st p = em := by
    unfold get_metadata; rw [hmd]; rfl
  refine ⟨h1, h2, h3, ?_, ?_, ?_⟩
  · unfold get_dependenciesS; rw [h1]
  · unfold get_dependentsS; rw [h2]
  · unfold get_metadataS; rw [h3]

/-- Witness for C10: querying the absent path `c` on the one-edge graph. -/
theorem queries_on_non_nodes_witness :
    get_dependencies id (applyOps id () [GOp.addE "a" "b" none]) "c" = ∅ ∧
    get_dependents id (applyOps id () [GOp.addE "a" "b" none]) "c" = ∅ ∧
    get_metadata id () (applyOps id () [GOp.addE "a" "b" none]) "c" = () ∧
    get_dependenciesS id (applyOps id () [GOp.addE "a" "b" none]) "c" =
      (∅, applyOps id () [GOp.addE "a" "b" none]) ∧
    get_dependentsS id (applyOps id () [GOp.addE "a" "b" none]) "c" =
      (∅, applyOps id () [GOp.addE "a" "b" none]) ∧
    get_metadataS id () (applyOps id () [GOp.addE "a" "b" none]) "c" =
      ((), applyOps id () [GOp.addE "a" "b" none]) :=
  queries_on_non_nodes () id (fun _ => rfl) [GOp.addE "a" "b" none] "c" (by decide)

/-! ## Cycle detector (`src/cycle_detector.py`)

`detect_cycles` iterates over the Python set `self.graph.get_all_nodes()`
and `_dfs` iterates over the set `self.graph.get_dependencies(node)`.
CPython iterates sets of strings in an order that depends on the
process-wide string hash seed, so both orders are explicit parameters of
the embedding: `nodesList` is the enumeration of the node set and
`dep node` the enumeration of the dependency set of `node`.

The Python recursion terminates on every finite graph; the embedding makes
this explicit with a `fuel` argument bounding the recursion depth.  Any
`fuel` larger than the number of distinct nodes reproduces the Python run
(each non-trivial nested call marks a fresh node visited); the soundness
theorems below hold for every `fuel`. -/

/-- Mutable state shared by the `_dfs` calls: `self._visited`,
`self._recursion_stack` and `self.cycles`. -/
structure DfsSt where
  visited : Finset String
  stack : Finset String
  cycles : List (List String)

/-- Lexicographic strict comparison of character lists — the order Python
uses to compare strings. -/
def lexLt : List Char → List Char → Bool
  | [], [] => false
  | [], _ :: _ => true
  | _ :: _, [] => false
  | a :: as, b :: bs => if a < b then true else if b < a then false else lexLt as bs

/-- Python `s1 < s2` on strings. -/
def strLt (a b : String) : Bool := lexLt a.data b.data

/-- Python `min(a, b)` on strings: the second argument only when it is
strictly smaller. -/
def pyMin (a b : String) : String := if strLt b a then b else a

/-- Python `min(range(len(l)), key=lambda i: l[i])` returns the value at
the first index holding the minimum; the minimum value itself is the fold
of `min` over the list. -/
def minElem : List String → String
  | [] => ""
  | a :: as => as.foldl pyMin a

theorem lexLt_iff_lex (as bs : List Char) :
    lexLt as bs = true ↔ List.Lex (· < ·) as bs := by
  induction as generalizing bs with
  | nil =>
      cases bs with
      | nil =>
          simp only [lexLt]
          constructor
          · intro h; cases h
          · intro h; cases h
      | cons b bs =>
          simp only [lexLt]
          exact ⟨fun _ => List.Lex.nil, fun _ => trivial⟩
  | cons a as ih =>
      cases bs with
      | nil =>
          simp only [lexLt]
          constructor
          · intro h; cases h
          · intro h; cases h
      | cons b bs =>
          simp only [lexLt]
          by_cases hab : a < b
          · rw [if_pos hab]
            exact ⟨fun _ => List.Lex.rel hab, fun _ => rfl⟩
          · rw [if_neg hab]
            by_cases hba : b < a
            · rw [if_pos hba]
              constructor
              · intro h; cases h
              · intro h
                cases h with
                | cons h2 => exact absurd hba (lt_irrefl a)
                | rel h2 => exact absurd h2 hab
            · rw [if_neg hba]
              have heq : a = b := le_antisymm (le_of_not_lt hba) (le_of_not_lt hab)
              subst heq
              rw [ih bs]
              constructor
              · intro h; exact List.Lex.cons h
              · intro h
                cases h with
                | cons h2 => exact h2
                | rel h2 => exact absurd h2 (lt_irrefl a)

theorem strLt_iff (a b : String) : strLt a b = true ↔ a < b := by
  rw [String.lt_iff_toList_lt]
  exact lexLt_iff_lex a.toList b.toList

theorem strLt_false_iff (a b : String) : strLt a b = false ↔ b ≤ a := by
  rw [← not_lt, ← strLt_iff]
  cases h : strLt a b <;> simp

theorem pyMin_le_left (a b : String) : pyMin a b ≤ a := by
  unfold pyMin
  cases h : strLt b a
  · exact le_refl a
  · exact le_of_lt ((strLt_iff b a).mp h)

theorem pyMin_le_right (a b : String) : pyMin a b ≤ b := by
  unfold pyMin
  cases h : strLt b a
  · exact (strLt_false_iff b a).mp h
  · exact le_refl b

theorem pyMin_eq_or (a b : String) : pyMin a b = a ∨ pyMin a b = b := by
  unfold pyMin
  cases h : strLt b a
  · exact Or.inl rfl
  · exact Or.inr rfl

/-- Python slice rotation `l[j:] + l[:j]`. -/
def rotateAt (l : List String) (j : Nat) : List String := l.drop j ++ l.take j

/-- The stack-hit step of `_dfs`: take the tail of the path from the first
occurrence of `node` (`cycle_start = path.index(node)`), close the loop
with `node`, and — when non-empty, which it always is — rotate so that the
first index of the minimum comes first. -/
def cycleOf (node : String) (path : List String) : List String :=
  let cycle0 := path.drop (path.indexOf node) ++ [node]
  if cycle0 = [] then cycle0
  else rotateAt cycle0 (cycle0.indexOf (minElem cycle0))

/-- The final `self._recursion_stack.remove(node)` of a `_dfs` call (the
accompanying `path.pop()` acts on the caller-local copy of the path and is
invisible outside the call). -/
def popStack (node : String) (st : DfsSt) : DfsSt :=
  { st with stack := st.stack.erase node }

/-- Source `CycleDetector._dfs`.  `path` is passed by copy in the source
(`path.copy()`), so the embedding passes it functionally.  On a stack hit
the rotated cycle is appended if its vertex-set signature
`tuple(sorted(set(cycle)))` — equivalently its `toFinset` — is new. -/
def dfs (dep : String → List String) : Nat → String → List String → DfsSt → DfsSt
  | 0, _, _, st => st
  | fuel + 1, node, path, st =>
    if node ∈ st.stack then
      if ∀ c ∈ st.cycles, c.toFinset ≠ (cycleOf node path).toFinset then
        { st with cycles := st.cycles ++ [cycleOf node path] }
      else st
    else if node ∈ st.visited then st
    else
      popStack node
        ((dep node).foldl (fun s nb => dfs dep fuel nb (path ++ [node]) s)
          { st with visited := insert node st.visited, stack := insert node st.stack })

/-- Source `CycleDetector.detect_cycles`: reset the state, run `_dfs` from every
not-yet-visited node in enumeration order, return the cycle list. -/
def detect_cycles (nodesList : List String) (dep : String → List String)
    (fuel : Nat) : List (List String) :=
  (nodesList.foldl
    (fun st node => if node ∉ st.visited then dfs dep fuel node [] st else st)
    ⟨∅, ∅, []⟩).cycles

theorem foldl_min_le_self (l : List String) (a : String) : l.foldl pyMin a ≤ a := by
  induction l generalizing a with
  | nil => exact le_refl a
  | cons b bs ih => exact le_trans (ih (pyMin a b)) (pyMin_le_left a b)

theorem foldl_min_le (l : List String) (a x : String) (hx : x ∈ l) :
    l.foldl pyMin a ≤ x := by
  induction l generalizing a with
  | nil => cases hx
  | cons b bs ih =>
      rcases List.mem_cons.mp hx with rfl | hx
      · exact le_trans (foldl_min_le_self bs (pyMin a x)) (pyMin_le_right a x)
      · exact ih (pyMin a b) hx

theorem minElem_le (l : List String) (x : String) (hx : x ∈ l) : minElem l ≤ x := by
  cases l with
  | nil => cases hx
  | cons a as =>
      rcases List.mem_cons.mp hx with rfl | hx
      · exact foldl_min_le_self as x
      · exact foldl_min_le as a x hx

theorem foldl_min_mem (l : List String) (a : String) :
    l.foldl pyMin a = a ∨ l.foldl pyMin a ∈ l := by
  induction l generalizing a with
  | nil => exact Or.inl rfl
  | cons b bs ih =>
      rcases ih (pyMin a b) with h | h
      · rcases pyMin_eq_or a b with hm | hm
        · exact Or.inl (by rw [List.foldl_cons, h, hm])
        · exact Or.inr (by rw [List.foldl_cons, h, hm]; exact List.mem_cons_self b bs)
      · exact Or.inr (List.mem_cons_of_mem b h)

theorem minElem_mem (l : List String) (hl : l ≠ []) : minElem l ∈ l := by
  cases l with
  | nil => exact absurd rfl hl
  | cons a as =>
      rcases foldl_min_mem as a with h | h
      · rw [minElem, h]; exact List.mem_cons_self a as
      · exact List.mem_cons_of_mem a h

theorem rotateAt_perm (l : List String) (j : Nat) : List.Perm (rotateAt l j) l := by
  have h1 : List.Perm (l.drop j ++ l.take j) (l.take j ++ l.drop j) :=
    List.perm_append_comm
  rw [List.take_append_drop j l] at h1
  exact h1

/-- A list is `GoodCycle dep c` when it is the min-first rotation of a
closed directed walk `w ++ [w.head]` over a repetition-free directed cycle
`w`: consecutive entries of `w ++ [w.head]` are edges (the last pair being
the closing edge back to the head of `w`), `c` starts with the
lexicographically smallest entry, and the vertex set of `c` is that of
`w`. -/
def GoodCycle (dep : String → List String) (c : List String) : Prop :=
  ∃ w : List String, w ≠ [] ∧ w.Nodup ∧
    List.Chain' (fun a b => b ∈ dep a) (w ++ [w.headD ""]) ∧
    c = rotateAt (w ++ [w.headD ""])
      ((w ++ [w.headD ""]).indexOf (minElem (w ++ [w.headD ""]))) ∧
    (∀ x ∈ c, c.headD "" ≤ x) ∧ c.toFinset = w.toFinset

/-- Every registered cycle is good and the vertex-set signatures of the
registered cycles are pairwise distinct. -/
def CyclesOk (dep : String → List String) (cs : List (List String)) : Prop :=
  (∀ c ∈ cs, GoodCycle dep c) ∧
  cs.Pairwise (fun c1 c2 => c1.toFinset ≠ c2.toFinset)

theorem rotateAt_min_head (l : List String) (hl : l ≠ []) :
    (∀ x ∈ rotateAt l (l.indexOf (minElem l)),
      (rotateAt l (l.indexOf (minElem l))).headD "" ≤ x) := by
  have hmem : minElem l ∈ l := minElem_mem l hl
  have hidx : l.indexOf (minElem l) < l.length := List.indexOf_lt_length.mpr hmem
  have hdrop : l.drop (l.indexOf (minElem l)) =
      minElem l :: l.drop (l.indexOf (minElem l) + 1) := by
    rw [List.drop_eq_getElem_cons hidx, List.getElem_indexOf hidx]
  have hhead : (rotateAt l (l.indexOf (minElem l))).headD "" = minElem l := by
    unfold rotateAt
    rw [hdrop]
    rfl
  intro x hx
  rw [hhead]
  exact minElem_le l x ((rotateAt_perm l _).mem_iff.mp hx)

theorem cycleOf_good (dep : String → List String) (node : String)
    (path : List String)
    (hchain : List.Chain' (fun a b => b ∈ dep a) path)
    (hnodup : path.Nodup)
    (hmem : node ∈ path)
    (hedge : ∀ a, path.getLast? = some a → node ∈ dep a) :
    GoodCycle dep (cycleOf node path) := by
  have hidx : path.indexOf node < path.length := List.indexOf_lt_length.mpr hmem
  have hdrop : path.drop (path.indexOf node) =
      node :: path.drop (path.indexOf node + 1) := by
    rw [List.drop_eq_getElem_cons hidx, List.getElem_indexOf hidx]
  set w := path.drop (path.indexOf node) with hw
  have hwne : w ≠ [] := by rw [hdrop]; exact List.cons_ne_nil _ _
  have hwhead : w.headD "" = node := by rw [hdrop]; rfl
  have hwnodup : w.Nodup := hnodup.sublist (List.drop_sublist _ _)
  have hc0ne : w ++ [node] ≠ [] := by
    intro hcon
    exact hwne (List.append_eq_nil.mp hcon).1
  have hceq : cycleOf node path =
      rotateAt (w ++ [node]) ((w ++ [node]).indexOf (minElem (w ++ [node]))) := by
    unfold cycleOf
    rw [← hw, if_neg hc0ne]
  have hchainw : List.Chain' (fun a b => b ∈ dep a) w :=
    hchain.suffix (List.drop_suffix _ _)
  have hlast : path.getLast? = w.getLast? := by
    conv =>
      lhs
      rw [← List.take_append_drop (path.indexOf node) path]
    rw [← hw]
    exact List.getLast?_append_of_ne_nil _ hwne
  have hchainc : List.Chain' (fun a b => b ∈ dep a) (w ++ [node]) := by
    rw [List.chain'_append]
    refine ⟨hchainw, List.chain'_singleton node, ?_⟩
    intro x hx y hy
    rw [List.head?_cons, Option.mem_def, Option.some_inj] at hy
    rw [← hy]
    exact hedge x (by rw [hlast]; exact hx)
  have hnodew : node ∈ w := by rw [hdrop]; exact List.mem_cons_self _ _
  refine ⟨w, hwne, hwnodup, ?_, ?_, ?_, ?_⟩
  · rw [hwhead]; exact hchainc
  · rw [hceq, hwhead]
  · rw [hceq]
    exact rotateAt_min_head (w ++ [node]) hc0ne
  · rw [hceq]
    ext x
    rw [List.mem_toFinset, List.mem_toFinset,
        (rotateAt_perm (w ++ [node]) _).mem_iff, List.mem_append,
        List.mem_singleton]
    constructor
    · rintro (hx | rfl)
      · exact hx
      · exact hnodew
    · intro hx
      exact Or.inl hx

theorem pairwise_concat_sig (cs : List (List String)) (c : List String)
    (hp : cs.Pairwise (fun c1 c2 => c1.toFinset ≠ c2.toFinset))
    (hnew : ∀ c2 ∈ cs, c2.toFinset ≠ c.toFinset) :
    (cs ++ [c]).Pairwise (fun c1 c2 => c1.toFinset ≠ c2.toFinset) := by
  rw [List.pairwise_append]
  refine ⟨hp, List.pairwise_singleton _ _, ?_⟩
  intro a ha b hb
  rw [List.mem_singleton] at hb
  rw [hb]
  exact hnew a ha

theorem dfs_ok (dep : String → List String) :
    ∀ (fuel : Nat) (node : String) (path : List String) (st : DfsSt),
      List.Chain' (fun a b => b ∈ dep a) path →
      path.Nodup →
      (∀ x, x ∈ st.stack ↔ x ∈ path) →
      (∀ a, path.getLast? = some a → node ∈ dep a) →
      CyclesOk dep st.cycles →
      (dfs dep fuel node path st).stack = st.stack ∧
      CyclesOk dep (dfs dep fuel node path st).cycles := by
  intro fuel
  induction fuel with
  | zero =>
      intro node path st _ _ _ _ hcy
      exact ⟨rfl, hcy⟩
  | succ fuel ih =>
      intro node path st hchain hnodup hstack hedge hcy
      by_cases h1 : node ∈ st.stack
      · have hgood : GoodCycle dep (cycleOf node path) :=
          cycleOf_good dep node path hchain hnodup ((hstack node).mp h1) hedge
        rw [dfs, if_pos h1]
        split
        · next hnew =>
            refine ⟨rfl, ?_, ?_⟩
            · intro c hc
              rcases List.mem_append.mp hc with hold | hsing
              · exact hcy.1 c hold
              · rw [List.mem_singleton.mp hsing]
                exact hgood
            · exact pairwise_concat_sig st.cycles (cycleOf node path) hcy.2 hnew
        · exact ⟨rfl, hcy⟩
      · by_cases h2 : node ∈ st.visited
        · rw [dfs, if_neg h1, if_pos h2]
          exact ⟨rfl, hcy⟩
        · have hnotin : node ∉ path := fun hc => h1 ((hstack node).mpr hc)
          have hchain2 : List.Chain' (fun a b => b ∈ dep a) (path ++ [node]) := by
            rw [List.chain'_append]
            refine ⟨hchain, List.chain'_singleton node, ?_⟩
            intro x hx y hy
            rw [List.head?_cons, Option.mem_def, Option.some_inj] at hy
            rw [← hy]
            exact hedge x hx
          have hnodup2 : (path ++ [node]).Nodup := by
            refine List.Nodup.append hnodup (List.nodup_singleton node) ?_
            intro a ha hb
            rw [List.mem_singleton] at hb
            exact hnotin (hb ▸ ha)
          have hfold : ∀ (nbs : List String), (∀ nb ∈ nbs, nb ∈ dep node) →
              ∀ (s : DfsSt), (∀ x, x ∈ s.stack ↔ x ∈ path ++ [node]) →
              CyclesOk dep s.cycles →
              (nbs.foldl (fun s nb => dfs dep fuel nb (path ++ [node]) s) s).stack
                = s.stack ∧
              CyclesOk dep
                (nbs.foldl (fun s nb => dfs dep fuel nb (path ++ [node]) s) s).cycles := by
            intro nbs
            induction nbs with
            | nil =>
                intro _ s _ hcys
                exact ⟨rfl, hcys⟩
            | cons nb rest ihn =>
                intro hsub s hs hcys
                have hedge2 : ∀ a, (path ++ [node]).getLast? = some a →
                    nb ∈ dep a := by
                  intro a hga
                  rw [List.getLast?_concat] at hga
                  rw [← Option.some_inj.mp hga]
                  exact hsub nb (List.mem_cons_self _ _)
                have hstep := ih nb (path ++ [node]) s hchain2 hnodup2 hs hedge2 hcys
                have hs2 : ∀ x, x ∈ (dfs dep fuel nb (path ++ [node]) s).stack ↔
                    x ∈ path ++ [node] := by
                  intro x
                  rw [hstep.1]
                  exact hs x
                have hrest := ihn (fun nb2 h => hsub nb2 (List.mem_cons_of_mem _ h))
                  (dfs dep fuel nb (path ++ [node]) s) hs2 hstep.2
                rw [List.foldl_cons]
                refine ⟨?_, hrest.2⟩
                rw [hrest.1, hstep.1]
          have hs1 : ∀ x,
              x ∈ (insert node st.stack : Finset String) ↔ x ∈ path ++ [node] := by
            intro x
            rw [Finset.mem_insert, List.mem_append, List.mem_singleton, hstack x]
            tauto
          have hres := hfold (dep node) (fun _ h => h)
            { st with visited := insert node st.visited, stack := insert node st.stack }
            hs1 hcy
          rw [dfs, if_neg h1, if_neg h2]
          constructor
          · show ((_ : DfsSt).stack.erase node) = st.stack
            rw [hres.1]
            exact Finset.erase_insert h1
          · exact hres.2

/-- The accumulated state of the `detect_cycles` top-level loop keeps an
empty recursion stack and only good, signature-distinct cycles. -/
theorem detect_cycles_loop_ok (dep : String → List String) (fuel : Nat)
    (nodesList : List String) :
    ∀ (st : DfsSt), (∀ x, x ∈ st.stack ↔ x ∈ ([] : List String)) →
      CyclesOk dep st.cycles →
      CyclesOk dep
        ((nodesList.foldl
          (fun st node => if node ∉ st.visited then dfs dep fuel node [] st else st)
          st).cycles) := by
  induction nodesList with
  | nil =>
      intro st _ hcy
      exact hcy
  | cons node rest ihn =>
      intro st hstack hcy
      rw [List.foldl_cons]
      by_cases hv : node ∉ st.visited
      · rw [if_pos hv]
        have hstep := dfs_ok dep fuel node [] st List.chain'_nil List.nodup_nil
          hstack (fun a ha => by cases ha) hcy
        refine ihn _ ?_ hstep.2
        intro x
        rw [hstep.1]
        exact hstack x
      · rw [if_neg hv]
        exact ihn st hstack hcy

/-- Boolean test that consecutive entries of a list are edges of the
adjacency `dep` — the directed-walk condition of the cycle claim. -/
def isWalkB (dep : String → List String) : List String → Bool
  | [] => true
  | [_] => true
  | a :: b :: rest => decide (b ∈ dep a) && isWalkB dep (b :: rest)

theorem isWalkB_iff (dep : String → List String) (l : List String) :
    isWalkB dep l = true ↔ List.Chain' (fun a b => b ∈ dep a) l := by
  induction l with
  | nil => simp [isWalkB]
  | cons a rest ih =>
      cases rest with
      | nil => simp [isWalkB]
      | cons b rest2 =>
          simp only [isWalkB, Bool.and_eq_true, decide_eq_true_eq, List.chain'_cons]
          rw [ih]

/-- The cycle-detector output property exactly as the specification states
it: every returned cycle is a directed walk whose consecutive entries are
edges, an edge leads from its last entry back to its first entry, it
starts with the lexicographically smallest node, and the vertex sets of
the returned cycles are pairwise distinct. -/
def statedCycleOutputSpec (nodesList : List String) (dep : String → List String)
    (fuel : Nat) : Prop :=
  (∀ c ∈ detect_cycles nodesList dep fuel,
      isWalkB dep c = true ∧
      (c ≠ [] → c.headD "" ∈ dep (c.getLastD "")) ∧
      (∀ x ∈ c, strLt x (c.headD "") = false)) ∧
  (detect_cycles nodesList dep fuel).Pairwise (fun c1 c2 => c1.toFinset ≠ c2.toFinset)

/-- The two-node cycle `a → b → a`, with each adjacency list in its
enumeration order. -/
def cdep : String → List String :=
  fun s => if s = "a" then ["b"] else if s = "b" then ["a"] else []

/-- C1 counterexample: enumerating the same two-node cycle graph starting
from `b`, `detect_cycles` returns the single list `[a, b, b]`.  Its
consecutive pair `(b, b)` is not an edge, so the returned list is not a
directed walk `v0 → … → vn → v0`, refuting the claim as stated (the
duplicated closing vertex of `path[i:] + [node]` survives the rotation). -/
theorem detect_cycles_claim_counterexample :
    detect_cycles ["b", "a"] cdep 10 = [["a", "b", "b"]] ∧
    ¬ ("b" ∈ cdep "b") ∧
    ¬ statedCycleOutputSpec ["b", "a"] cdep 10 := by
  unfold statedCycleOutputSpec
  decide

/-- C1 (amended): every list returned by `detect_cycles` is the min-first
rotation of a closed walk `w ++ [w.head]` built from a repetition-free
directed cycle `w` (consecutive entries of `w ++ [w.head]` are edges,
including the closing edge back to the head); the returned list starts
with its lexicographically smallest entry, its vertex set is exactly that
of `w`, and the vertex sets of the returned cycles are pairwise
distinct.  This holds for every graph, every set-enumeration order and
every fuel. -/
theorem detect_cycles_sound (nodesList : List String)
    (dep : String → List String) (fuel : Nat) :
    (∀ c ∈ detect_cycles nodesList dep fuel, GoodCycle dep c) ∧
    (detect_cycles nodesList dep fuel).Pairwise
      (fun c1 c2 => c1.toFinset ≠ c2.toFinset) := by
  have hstack : ∀ x, x ∈ (∅ : Finset String) ↔ x ∈ ([] : List String) := by
    intro x
    simp
  have hcy : CyclesOk dep ([] : List (List String)) :=
    ⟨fun c hc => absurd hc (List.not_mem_nil c), List.Pairwise.nil⟩
  have h := detect_cycles_loop_ok dep fuel nodesList ⟨∅, ∅, []⟩ hstack hcy
  exact ⟨h.1, h.2⟩

/-- C2: the cycle listing is not a function of the graph alone — it also
depends on the order in which the Python set of nodes is enumerated, an
order that varies from run to run with the interpreter's string hash
seed.  The same two-node cycle graph enumerated as `[a, b]` versus
`[b, a]` yields different cycle reports, refuting byte-identical output
across runs over an identical tree. -/
theorem detect_cycles_order_dependent :
    (["a", "b"] : List String).toFinset = (["b", "a"] : List String).toFinset ∧
    detect_cycles ["a", "b"] cdep 10 = [["a", "b", "a"]] ∧
    detect_cycles ["b", "a"] cdep 10 = [["a", "b", "b"]] ∧
    detect_cycles ["a", "b"] cdep 10 ≠ detect_cycles ["b", "a"] cdep 10 := by
  decide

/-! ## Dead-code detector (`src/dead_code_detector.py`)

`detect_dead_code` runs a worklist closure from the entry points, following
both `get_dependencies` and `get_dependents` (the undirected projection),
then reports `all_nodes - reachable` as unused.  Python iterates the
neighbour sets in set order and treats `to_visit` as a stack
(`append`/`pop` at the end); the embedding enumerates neighbour sets with
`Finset.toList` and pushes at the head of the list, which changes only the
processing order, never the resulting reachable set.  Termination of the
Python loop rests on every pushed element coming from a value of one of
the two finite adjacency dicts; the measure below makes that explicit. -/

/-- Union of all value sets of an adjacency dict — every element a
`dict.get` can ever return lives here. -/
def valuesUnion (d : List (String × Finset String)) : Finset String :=
  d.foldr (fun p acc => p.2 ∪ acc) ∅

theorem getD_subset_valuesUnion (d : List (String × Finset String)) (k : String) :
    getD d k ∅ ⊆ valuesUnion d := by
  induction d with
  | nil =>
      intro x hx
      simp [getD, lookupD] at hx
  | cons p rest ih =>
      intro x hx
      obtain ⟨k0, v0⟩ := p
      simp only [getD, lookupD] at hx
      simp only [valuesUnion, List.foldr_cons, Finset.mem_union]
      by_cases h : k0 = k
      · rw [if_pos h] at hx
        exact Or.inl hx
      · rw [if_neg h] at hx
        exact Or.inr (ih hx)

theorem deps_subset_valuesUnion {M : Type} (norm : String → String)
    (st : GraphState M) (q : String) :
    get_dependencies norm st q ⊆ valuesUnion st.outgoing :=
  getD_subset_valuesUnion st.outgoing (norm q)

theorem dependents_subset_valuesUnion {M : Type} (norm : String → String)
    (st : GraphState M) (q : String) :
    get_dependents norm st q ⊆ valuesUnion st.incoming :=
  getD_subset_valuesUnion st.incoming (norm q)

/-- Universe of the worklist: every element the closure can ever push. -/
def ddUniverse {M : Type} (st : GraphState M) : Finset String :=
  valuesUnion st.outgoing ∪ valuesUnion st.incoming

/-- Termination measure for the worklist: unreached potential elements,
weighted, plus the worklist length. -/
def ddMeasure {M : Type} (st : GraphState M) (tv : List String)
    (reach : Finset String) : Nat :=
  ((ddUniverse st ∪ tv.toFinset) \ reach).card * (2 * (ddUniverse st).card + 2)
    + tv.length

theorem ddMeasure_branch1 (U : Finset String) (current : String)
    (rest : List String) (reach : Finset String) :
    ((U ∪ rest.toFinset) \ reach).card * (2 * U.card + 2) + rest.length <
    ((U ∪ (current :: rest).toFinset) \ reach).card * (2 * U.card + 2) +
      (current :: rest).length := by
  have hsub : (U ∪ rest.toFinset) \ reach ⊆ (U ∪ (current :: rest).toFinset) \ reach := by
    intro x hx
    rw [Finset.mem_sdiff] at hx ⊢
    refine ⟨?_, hx.2⟩
    rw [Finset.mem_union] at hx ⊢
    rcases hx.1 with h | h
    · exact Or.inl h
    · refine Or.inr ?_
      rw [List.toFinset_cons]
      exact Finset.mem_insert_of_mem h
  have hcard := Finset.card_le_card hsub
  have hmul := Nat.mul_le_mul_right (2 * U.card + 2) hcard
  simp only [List.length_cons]
  omega

theorem ddMeasure_branch2 (U : Finset String) (current : String)
    (rest newItems : List String) (reach : Finset String)
    (hnew : ∀ x ∈ newItems, x ∈ U)
    (hlen : newItems.length ≤ 2 * U.card)
    (hcur : current ∉ reach)
    (hcandidate : current ∈ U ∪ (current :: rest).toFinset) :
    ((U ∪ (newItems ++ rest).toFinset) \ insert current reach).card *
        (2 * U.card + 2) + (newItems ++ rest).length <
    ((U ∪ (current :: rest).toFinset) \ reach).card * (2 * U.card + 2) +
      (current :: rest).length := by
  have hsub : (U ∪ (newItems ++ rest).toFinset) \ insert current reach ⊆
      (((U ∪ (current :: rest).toFinset) \ reach).erase current) := by
    intro x hx
    rw [Finset.mem_sdiff, Finset.mem_insert] at hx
    push_neg at hx
    rw [Finset.mem_erase, Finset.mem_sdiff]
    refine ⟨hx.2.1, ?_, hx.2.2⟩
    have hx1 := hx.1
    rw [Finset.mem_union] at hx1 ⊢
    rcases hx1 with h | h
    · exact Or.inl h
    · rw [List.toFinset_append, Finset.mem_union] at h
      rcases h with h | h
      · exact Or.inl (hnew x (List.mem_toFinset.mp h))
      · refine Or.inr ?_
        rw [List.toFinset_cons]
        exact Finset.mem_insert_of_mem (by exact h)
  have hmemcur : current ∈ (U ∪ (current :: rest).toFinset) \ reach := by
    rw [Finset.mem_sdiff]
    exact ⟨hcandidate, hcur⟩
  have hpos : 0 < ((U ∪ (current :: rest).toFinset) \ reach).card :=
    Finset.card_pos.mpr ⟨current, hmemcur⟩
  have hcard : ((U ∪ (newItems ++ rest).toFinset) \ insert current reach).card + 1 ≤
      ((U ∪ (current :: rest).toFinset) \ reach).card := by
    have h1 := Finset.card_le_card hsub
    have h2 := Finset.card_erase_lt_of_mem hmemcur
    omega
  have hmul := Nat.mul_le_mul_right (2 * U.card + 2)
    (Nat.le_sub_one_of_lt (Nat.lt_of_succ_le hcard))
  have hx : ((U ∪ (newItems ++ rest).toFinset) \ insert current reach).card *
      (2 * U.card + 2) + (2 * U.card + 2) ≤
      ((U ∪ (current :: rest).toFinset) \ reach).card * (2 * U.card + 2) := by
    have := Nat.mul_le_mul_right (2 * U.card + 2) hcard
    rw [Nat.succ_mul] at this
    exact this
  have hlen2 : (newItems ++ rest).length = newItems.length + rest.length :=
    List.length_append _ _
  simp only [List.length_cons]
  omega

/-- Enumeration of a Python set.  The iteration order of a CPython set is
not part of its value; properties proved about the worklist hold for any
order, and the embedding fixes the sorted one. -/
def enumF (s : Finset String) : List String := s.sort (· ≤ ·)

theorem mem_enumF (s : Finset String) (x : String) : x ∈ enumF s ↔ x ∈ s :=
  Finset.mem_sort _

theorem length_enumF (s : Finset String) : (enumF s).length = s.card :=
  Finset.length_sort _

theorem ddMeasure_lt_skip {M : Type} (st : GraphState M) (current : String)
    (rest : List String) (reach : Finset String) :
    ddMeasure st rest reach < ddMeasure st (current :: rest) reach := by
  unfold ddMeasure
  exact ddMeasure_branch1 (ddUniverse st) current rest reach

theorem ddMeasure_lt_push {M : Type} (norm : String → String) (st : GraphState M)
    (current : String) (rest : List String) (reach : Finset String)
    (hcur : current ∉ reach) :
    ddMeasure st
      (((enumF (get_dependencies norm st current)).filter
          (fun d => d ∉ insert current reach)) ++
       ((enumF (get_dependents norm st current)).filter
          (fun d => d ∉ insert current reach)) ++ rest)
      (insert current reach) < ddMeasure st (current :: rest) reach := by
  unfold ddMeasure
  refine ddMeasure_branch2 (ddUniverse st) current rest
    (((enumF (get_dependencies norm st current)).filter
        (fun d => d ∉ insert current reach)) ++
     ((enumF (get_dependents norm st current)).filter
        (fun d => d ∉ insert current reach)))
    reach ?_ ?_ hcur ?_
  · intro x hx
    rw [List.mem_append] at hx
    unfold ddUniverse
    rw [Finset.mem_union]
    rcases hx with h | h
    · exact Or.inl (deps_subset_valuesUnion norm st current
        ((mem_enumF _ x).mp (List.mem_filter.mp h).1))
    · exact Or.inr (dependents_subset_valuesUnion norm st current
        ((mem_enumF _ x).mp (List.mem_filter.mp h).1))
  · rw [List.length_append]
    have h1 : ((enumF (get_dependencies norm st current)).filter
        (fun d => d ∉ insert current reach)).length ≤ (ddUniverse st).card := by
      calc ((enumF (get_dependencies norm st current)).filter
          (fun d => d ∉ insert current reach)).length
          ≤ (enumF (get_dependencies norm st current)).length :=
            List.length_filter_le _ _
        _ = (get_dependencies norm st current).card := length_enumF _
        _ ≤ (ddUniverse st).card := Finset.card_le_card (by
            intro x hx
            unfold ddUniverse
            rw [Finset.mem_union]
            exact Or.inl (deps_subset_valuesUnion norm st current hx))
    have h2 : ((enumF (get_dependents norm st current)).filter
        (fun d => d ∉ insert current reach)).length ≤ (ddUniverse st).card := by
      calc ((enumF (get_dependents norm st current)).filter
          (fun d => d ∉ insert current reach)).length
          ≤ (enumF (get_dependents norm st current)).length :=
            List.length_filter_le _ _
        _ = (get_dependents norm st current).card := length_enumF _
        _ ≤ (ddUniverse st).card := Finset.card_le_card (by
            intro x hx
            unfold ddUniverse
            rw [Finset.mem_union]
            exact Or.inr (dependents_subset_valuesUnion norm st current hx))
    omega
  · rw [Finset.mem_union, List.toFinset_cons]
    exact Or.inr (Finset.mem_insert_self _ _)

/-- The worklist loop of `DeadCodeDetector.detect_dead_code`: pop a node;
if it is already reachable skip it, otherwise mark it reachable and push
its not-yet-reachable dependencies and dependents. -/
def ddWork {M : Type} (norm : String → String) (st : GraphState M) :
    (tv : List String) → (reach : Finset String) → Finset String
  | [], reach => reach
  | current :: rest, reach =>
      if current ∈ reach then
        ddWork norm st rest reach
      else
        ddWork norm st
          (((enumF (get_dependencies norm st current)).filter
              (fun d => d ∉ insert current reach)) ++
           ((enumF (get_dependents norm st current)).filter
              (fun d => d ∉ insert current reach)) ++ rest)
          (insert current reach)
  termination_by tv reach => ddMeasure st tv reach
  decreasing_by
  · exact ddMeasure_lt_skip st current rest reach
  · rename_i hcur
    exact ddMeasure_lt_push norm st current rest reach hcur

/-- One undirected-projection step of the graph: `y` is a dependency or a
dependent of `x`. -/
def ustep {M : Type} (norm : String → String) (st : GraphState M)
    (x y : String) : Prop :=
  y ∈ get_dependencies norm st x ∨ y ∈ get_dependents norm st x

theorem ddWork_mono {M : Type} (norm : String → String) (st : GraphState M)
    (tv : List String) (reach : Finset String) :
    reach ⊆ ddWork norm st tv reach := by
  induction tv, reach using ddWork.induct norm st with
  | case1 reach => rw [ddWork]
  | case2 current rest reach hcur ih =>
      rw [ddWork, if_pos hcur]
      exact ih
  | case3 current rest reach hcur ih =>
      rw [ddWork, if_neg hcur]
      exact subset_trans (Finset.subset_insert current reach) ih

theorem ddWork_tv_subset {M : Type} (norm : String → String) (st : GraphState M)
    (tv : List String) (reach : Finset String) :
    ∀ x ∈ tv, x ∈ ddWork norm st tv reach := by
  induction tv, reach using ddWork.induct norm st with
  | case1 reach =>
      intro x hx
      cases hx
  | case2 current rest reach hcur ih =>
      intro x hx
      rw [ddWork, if_pos hcur]
      rcases List.mem_cons.mp hx with rfl | hx
      · exact ddWork_mono norm st rest reach hcur
      · exact ih x hx
  | case3 current rest reach hcur ih =>
      intro x hx
      rw [ddWork, if_neg hcur]
      rcases List.mem_cons.mp hx with rfl | hx
      · exact ddWork_mono norm st _ _ (Finset.mem_insert_self x reach)
      · exact ih x (List.mem_append_right _ hx)

theorem ddWork_closed {M : Type} (norm : String → String) (st : GraphState M)
    (tv : List String) (reach : Finset String)
    (hpre : ∀ x ∈ reach, ∀ y, ustep norm st x y → (y ∈ reach ∨ y ∈ tv)) :
    ∀ x ∈ ddWork norm st tv reach, ∀ y, ustep norm st x y →
      y ∈ ddWork norm st tv reach := by
  induction tv, reach using ddWork.induct norm st with
  | case1 reach =>
      intro x hx y hy
      rw [ddWork] at hx ⊢
      rcases hpre x hx y hy with h | h
      · exact h
      · cases h
  | case2 current rest reach hcur ih =>
      rw [ddWork, if_pos hcur]
      refine ih ?_
      intro x hx y hy
      rcases hpre x hx y hy with h | h
      · exact Or.inl h
      · rcases List.mem_cons.mp h with rfl | h
        · exact Or.inl hcur
        · exact Or.inr h
  | case3 current rest reach hcur ih =>
      rw [ddWork, if_neg hcur]
      refine ih ?_
      intro x hx y hy
      rcases Finset.mem_insert.mp hx with rfl | hx
      · by_cases hy2 : y ∈ insert x reach
        · rcases Finset.mem_insert.mp hy2 with rfl | hy2
          · exact Or.inl (Finset.mem_insert_self y reach)
          · exact Or.inl (Finset.mem_insert_of_mem hy2)
        · refine Or.inr ?_
          rcases hy with h | h
          · refine List.mem_append_left _ (List.mem_append_left _ ?_)
            rw [List.mem_filter]
            exact ⟨(mem_enumF _ y).mpr h, by simpa using hy2⟩
          · refine List.mem_append_left _ (List.mem_append_right _ ?_)
            rw [List.mem_filter]
            exact ⟨(mem_enumF _ y).mpr h, by simpa using hy2⟩
      · rcases hpre x hx y hy with h | h
        · exact Or.inl (Finset.mem_insert_of_mem h)
        · rcases List.mem_cons.mp h with rfl | h
          · exact Or.inl (Finset.mem_insert_self y reach)
          · exact Or.inr (List.mem_append_right _ h)

/-- Result record of `detect_dead_code`: the `unused_modules` set and the
`unused_exports` dict. -/
structure DeadCodeResult where
  unused_modules : Finset String
  unused_exports : List (String × Finset String)

/-- Source `DeadCodeDetector.detect_dead_code` with an explicitly supplied entry
point list (the `entry_points is None` discovery path is not taken):
compute the reachable closure over both edge directions, report
`all_nodes - reachable` as unused modules, and report the whole export set
of every file with exports, no dependents and not an entry point. -/
def detect_dead_code {M : Type} (norm : String → String) (st : GraphState M)
    (exports : String → Finset String) (entry_points : List String) :
    DeadCodeResult :=
  let reachable := ddWork norm st entry_points ∅
  { unused_modules := st.nodes \ reachable
    unused_exports :=
      ((enumF st.nodes).filter (fun f =>
          decide (exports f ≠ ∅ ∧ get_dependents norm st f = ∅ ∧
            f ∉ entry_points))).map
        (fun f => (f, exports f)) }

theorem reachable_of_reflTransGen {M : Type} (norm : String → String)
    (st : GraphState M) (entry_points : List String) (e f : String)
    (he : e ∈ entry_points)
    (hpath : Relation.ReflTransGen (ustep norm st) e f) :
    f ∈ ddWork norm st entry_points ∅ := by
  induction hpath with
  | refl => exact ddWork_tv_subset norm st entry_points ∅ e he
  | tail hxy hstep ih =>
      exact ddWork_closed norm st entry_points ∅
        (fun x hx => absurd hx (Finset.not_mem_empty x)) _ ih _ hstep

/-- C6: for every graph state with symmetric adjacency queries and every
entry-point list, the `unused_modules` set of `detect_dead_code` is
disjoint from the entry points, and no unused file is connected to any
entry point in either direction of the undirected projection (the
reflexive-transitive closure of dependency-or-dependent steps). -/
theorem dead_code_reachability {M : Type} (norm : String → String)
    (st : GraphState M) (exports : String → Finset String)
    (entry_points : List String)
    (hsym : ∀ x y, y ∈ get_dependencies norm st x ↔ x ∈ get_dependents norm st y) :
    (∀ e ∈ entry_points,
      e ∉ (detect_dead_code norm st exports entry_points).unused_modules) ∧
    (∀ f ∈ (detect_dead_code norm st exports entry_points).unused_modules,
      ∀ e ∈ entry_points,
        ¬ Relation.ReflTransGen (ustep norm st) e f ∧
        ¬ Relation.ReflTransGen (ustep norm st) f e) := by
  have hstepsymm : Symmetric (ustep norm st) := by
    intro x y hxy
    rcases hxy with h | h
    · exact Or.inr ((hsym x y).mp h)
    · exact Or.inl ((hsym y x).mpr h)
  constructor
  · intro e he hmem
    rw [detect_dead_code] at hmem
    simp only [Finset.mem_sdiff] at hmem
    exact hmem.2 (ddWork_tv_subset norm st entry_points ∅ e he)
  · intro f hf e he
    rw [detect_dead_code] at hf
    simp only [Finset.mem_sdiff] at hf
    constructor
    · intro hpath
      exact hf.2 (reachable_of_reflTransGen norm st entry_points e f he hpath)
    · intro hpath
      exact hf.2 (reachable_of_reflTransGen norm st entry_points e f he
        (Relation.ReflTransGen.symmetric hstepsymm hpath))

/-- Adjacency symmetry holds for every graph built by replaying
`add_node`/`add_edge` operations with the identity normalizer. -/
theorem hsym_of_applyOps_id {M : Type} (em : M) (ops : List (GOp M)) :
    ∀ x y, y ∈ get_dependencies id (applyOps id em ops) x ↔
      x ∈ get_dependents id (applyOps id em ops) y := by
  have hinv := ginv_applyOps em id (fun _ => rfl) ops
  intro x y
  constructor
  · intro h
    obtain ⟨m, hm⟩ := hinv.outEdge x y h
    exact (hinv.edgeAdj _ hm).2
  · intro h
    obtain ⟨m, hm⟩ := hinv.inEdge x y h
    exact (hinv.edgeAdj _ hm).1

/-- Witness for C6 at a concrete graph: nodes `{a, b, c}` with the single
edge `a → b` and entry-point list `[a]`. -/
theorem dead_code_reachability_witness :
    (∀ e ∈ ["a"],
      e ∉ (detect_dead_code id
        (applyOps id () [GOp.addE "a" "b" none, GOp.addN "c" none])
        (fun _ => ∅) ["a"]).unused_modules) ∧
    (∀ f ∈ (detect_dead_code id
        (applyOps id () [GOp.addE "a" "b" none, GOp.addN "c" none])
        (fun _ => ∅) ["a"]).unused_modules,
      ∀ e ∈ ["a"],
        ¬ Relation.ReflTransGen
          (ustep id (applyOps id () [GOp.addE "a" "b" none, GOp.addN "c" none])) e f ∧
        ¬ Relation.ReflTransGen
          (ustep id (applyOps id () [GOp.addE "a" "b" none, GOp.addN "c" none])) f e) :=
  dead_code_reachability id
    (applyOps id () [GOp.addE "a" "b" none, GOp.addN "c" none])
    (fun _ => ∅) ["a"]
    (hsym_of_applyOps_id () [GOp.addE "a" "b" none, GOp.addN "c" none])

/-! ## Import resolver (`src/parser/import_resolver.py`)

File paths are modelled as lists of components of an absolute, already
`resolve()`d path (so `Path(x).resolve()` is parsing, and `.parent` is
`dropLast`).  `pathlib`'s join `dir / s` replaces the whole path when `s`
is absolute; `joinPath` mirrors that.  The module maps hold strings, as in
the source.  String splitting and joining are implemented over the
character lists so that concrete runs reduce inside the kernel. -/

/-- Python `str.split(sep)` over a character list, keeping empty chunks. -/
def splitChars (sep : Char) : List Char → List (List Char)
  | [] => [[]]
  | a :: as =>
      match splitChars sep as with
      | [] => [[]]
      | g :: gs => if a = sep then [] :: g :: gs else (a :: g) :: gs

/-- Python `s.split(sep)` for a one-character separator. -/
def strSplit (sep : Char) (s : String) : List String :=
  (splitChars sep s.data).map String.mk

/-- Python `sep.join(parts)`. -/
def joinSep (sep : String) : List String → String
  | [] => ""
  | [p] => p
  | p :: q :: rest => p ++ sep ++ joinSep sep (q :: rest)

/-- Python `s.startswith(c)` for a one-character test. -/
def startsWithChar (c : Char) (s : String) : Bool :=
  match s.data with
  | [] => false
  | a :: _ => a = c

/-- Render an absolute path as `str(...)` of a resolved `pathlib` path. -/
def pathStr (p : List String) : String := "/" ++ joinSep "/" p

/-- Parse a string into absolute-path components (`Path(s).resolve()` for
the already-normalized strings this model handles). -/
def parseAbs (s : String) : List String :=
  (strSplit '/' s).filter (fun t => t ≠ "")

/-- Model of the `pathlib` join `dir / s`: an absolute right operand replaces the whole
path. -/
def joinPath (dir : List String) (s : String) : List String :=
  if startsWithChar '/' s then parseAbs s else dir ++ parseAbs s

/-- The ancestor walk `while current != project_root.parent: …;
current = current.parent`, collecting the visited directories.  The fuel
is the component count of the start directory, which the walk consumes one
component at a time; Python's `Path.parent` is stationary at `/`, where
Python would loop forever if the stop directory were never reached — the
model stops after probing the root once, which agrees with Python in every
terminating case. -/
def probeDirs : Nat → List String → List String → List (List String)
  | 0, cur, stop => if cur = stop then [] else [cur]
  | n + 1, cur, stop => if cur = stop then [] else cur :: probeDirs n cur.dropLast stop

/-- The two filesystem candidates the resolver probes under a directory:
`dir / (name + ".py")` and `dir / name / "__init__.py"`. -/
def probePair (dir : List String) (name : String) : List (List String) :=
  [joinPath dir (name ++ ".py"), joinPath (joinPath dir name) "__init__.py"]

/-- The descending-prefix loop of the absolute branch:
`for i in range(len(parts), 0, -1): …` looks up `'.'.join(parts[:i])`. -/
def prefixLookup (mtf : List (String × String)) (parts : List String) :
    Nat → Option String
  | 0 => none
  | i + 1 =>
      match lookupD mtf (joinSep "." (parts.take (i + 1))) with
      | some f => some f
      | none => prefixLookup mtf parts i

/-- Source `ImportResolver.resolve_import`.  `mtf`/`ftm` are the
`module_to_file`/`file_to_module` dicts, `root` the resolved project root,
`fs` the set of existing regular files. -/
def resolve_import (mtf ftm : List (String × String)) (root : List String)
    (fs : List (List String)) (import_name : String) (from_file : String) :
    Option String :=
  let from_file_path := parseAbs from_file
  let from_dir := from_file_path.dropLast
  if startsWithChar '.' import_name then
    let base_module := (lookupD ftm (pathStr from_file_path)).getD ""
    if base_module = "" then none
    else
      let dots := (import_name.data.takeWhile (fun c => c = '.')).length
      let parts0 := strSplit '.' base_module
      let module_parts := parts0.take (parts0.length - dots)
      let remaining := String.mk (import_name.data.dropWhile (fun c => c = '.'))
      let resolved_module :=
        joinSep "." (if remaining ≠ "" then module_parts ++ [remaining] else module_parts)
      lookupD mtf resolved_module
  else
    match lookupD mtf import_name with
    | some f => some f
    | none =>
        let parts := strSplit '.' import_name
        match prefixLookup mtf parts parts.length with
        | some f => some f
        | none =>
            let probes := probePair from_dir import_name ++
              (probeDirs from_dir.length from_dir root.dropLast).flatMap
                (fun d => probePair d import_name)
            match probes.find? (fun p => decide (p ∈ fs)) with
            | some p => some (pathStr p)
            | none => none

/-- The module map of the two-file project `/proj/{m.py, a.py}`. -/
def mtfX : List (String × String) := [("m", "/proj/m.py"), ("a", "/proj/a.py")]

/-- The inverse file map of the same project. -/
def ftmX : List (String × String) := [("/proj/m.py", "m"), ("/proj/a.py", "a")]

/-- The files existing on disk in the same project. -/
def fsX : List (List String) := [["proj", "m.py"], ["proj", "a.py"]]

/-- C4 counterexample: in the project `/proj/{m.py, a.py}`, resolving the
module name `m` from `/proj/a.py` returns the project file `/proj/m.py`,
but resolving that returned file path again returns `None` — a file path
matches no module name (module names contain no `/`) and its probe
candidates `/proj/m.py.py` and `/proj/m.py/__init__.py` do not exist — so
`resolve(resolve(n, f), f) = resolve(n, f)` fails. -/
theorem resolve_import_claim_counterexample :
    resolve_import mtfX ftmX ["proj"] fsX "m" "/proj/a.py" = some "/proj/m.py" ∧
    resolve_import mtfX ftmX ["proj"] fsX "/proj/m.py" "/proj/a.py" = none := by
  decide

theorem splitChars_ne_nil (c : Char) (l : List Char) : splitChars c l ≠ [] := by
  cases l with
  | nil => simp [splitChars]
  | cons a as =>
      simp only [splitChars]
      rcases h : splitChars c as with _ | ⟨g, gs⟩
      · simp
      · by_cases hc : a = c <;> simp [hc]

theorem lookupD_none_of_keys {α : Type} (d : List (String × α)) (k : String)
    (h : ∀ p ∈ d, p.1 ≠ k) : lookupD d k = none := by
  induction d with
  | nil => rfl
  | cons p rest ih =>
      obtain ⟨k0, v0⟩ := p
      have hne : k0 ≠ k := h (k0, v0) (List.mem_cons_self _ _)
      simp only [lookupD, if_neg hne]
      exact ih (fun q hq => h q (List.mem_cons_of_mem _ hq))

theorem startsWithChar_data (c : Char) (q : String) (t : List Char)
    (h : q.data = c :: t) : startsWithChar c q = true := by
  unfold startsWithChar
  rw [h]
  simp

theorem data_of_startsWithChar (c : Char) (q : String)
    (h : startsWithChar c q = true) : ∃ t, q.data = c :: t := by
  unfold startsWithChar at h
  rcases hd : q.data with _ | ⟨a, as⟩
  · rw [hd] at h
    cases h
  · rw [hd] at h
    simp only [decide_eq_true_eq] at h
    subst h
    exact ⟨as, rfl⟩

theorem startsWithChar_append (c : Char) (x y : String) (t : List Char)
    (h : x.data = c :: t) : startsWithChar c (x ++ y) = true := by
  apply startsWithChar_data c (x ++ y) (t ++ y.data)
  rw [String.data_append, h]
  rfl

/-- The first chunk of splitting a slash-initial string on dots is itself
slash-initial. -/
theorem strSplit_dot_head (q : String) (t : List Char) (h : q.data = '/' :: t) :
    ∃ p1 rest g, strSplit '.' q = p1 :: rest ∧ p1.data = '/' :: g := by
  unfold strSplit
  rw [h]
  rcases hs : splitChars '.' t with _ | ⟨g, gs⟩
  · exact absurd hs (splitChars_ne_nil '.' t)
  · have hred : splitChars '.' ('/' :: t) = ('/' :: g) :: gs := by
      simp only [splitChars, hs]
      rw [if_neg (show ¬ ('/' : Char) = '.' by decide)]
    rw [hred]
    exact ⟨String.mk ('/' :: g), gs.map String.mk, g, by simp, rfl⟩

theorem joinSep_dot_startsWith (p1 : String) (rest : List String) (g : List Char)
    (h : p1.data = '/' :: g) :
    startsWithChar '/' (joinSep "." (p1 :: rest)) = true := by
  cases rest with
  | nil => exact startsWithChar_data '/' p1 g h
  | cons p2 rest2 =>
      show startsWithChar '/' (p1 ++ "." ++ joinSep "." (p2 :: rest2)) = true
      exact startsWithChar_append '/' (p1 ++ ".") _ (g ++ ".".data)
        (by rw [String.data_append, h]; rfl)

theorem prefixLookup_none (mtf : List (String × String)) (p1 : String)
    (rest : List String) (g : List Char) (hp1 : p1.data = '/' :: g)
    (hkeys : ∀ p ∈ mtf, startsWithChar '/' p.1 = false) :
    ∀ i, prefixLookup mtf (p1 :: rest) i = none := by
  intro i
  induction i with
  | zero => rfl
  | succ i ih =>
      have hkey : lookupD mtf (joinSep "." ((p1 :: rest).take (i + 1))) = none := by
        apply lookupD_none_of_keys
        intro p hp hcon
        have h1 := hkeys p hp
        rw [hcon] at h1
        have h2 : (p1 :: rest).take (i + 1) = p1 :: rest.take i := rfl
        rw [h2, joinSep_dot_startsWith p1 (rest.take i) g hp1] at h1
        cases h1
      simp only [prefixLookup, hkey]
      exact ih

/-- C4 (amended): a returned project file path is an absolute path string,
and resolving such a string again yields `None`, not the path: it starts
with `/`, so the relative branch is skipped and it matches no module-map
key (module names never start with `/`), no dotted prefix of it does
either, and by hypothesis none of the filesystem probe candidates built
from it exists.  Hence `resolve(resolve(n, f), f)` is `None`, not
`resolve(n, f)`: the resolver is not idempotent in the claimed sense. -/
theorem resolve_import_of_path_none (mtf ftm : List (String × String))
    (root : List String) (fs : List (List String)) (q from_file : String)
    (hq : startsWithChar '/' q = true)
    (hkeys : ∀ p ∈ mtf, startsWithChar '/' p.1 = false)
    (hprobe : ∀ d : List String,
      joinPath d (q ++ ".py") ∉ fs ∧ joinPath (joinPath d q) "__init__.py" ∉ fs) :
    resolve_import mtf ftm root fs q from_file = none := by
  obtain ⟨t, ht⟩ := data_of_startsWithChar '/' q hq
  have hdot : startsWithChar '.' q = false := by
    unfold startsWithChar
    rw [ht]
    simp
  obtain ⟨p1, rest, g, hsplit, hp1⟩ := strSplit_dot_head q t ht
  have hexact : lookupD mtf q = none := by
    apply lookupD_none_of_keys
    intro p hp hcon
    have h1 := hkeys p hp
    rw [hcon, hq] at h1
    cases h1
  have hpl : prefixLookup mtf (strSplit '.' q) (strSplit '.' q).length = none := by
    rw [hsplit]
    exact prefixLookup_none mtf p1 rest g hp1 hkeys _
  unfold resolve_import
  rw [hdot]
  simp only [Bool.false_eq_true, if_false, hexact, hpl]
  have hfind : ∀ (dirs : List (List String)) (d0 : List String),
      (probePair d0 q ++ dirs.flatMap (fun d => probePair d q)).find?
        (fun p => decide (p ∈ fs)) = none := by
    intro dirs d0
    rw [List.find?_eq_none]
    intro x hx
    rw [List.mem_append] at hx
    have hform : ∃ d, x ∈ probePair d q := by
      rcases hx with h | h
      · exact ⟨d0, h⟩
      · obtain ⟨d, _, hmem⟩ := List.mem_flatMap.mp h
        exact ⟨d, hmem⟩
    obtain ⟨d, hd⟩ := hform
    unfold probePair at hd
    rw [List.mem_cons, List.mem_cons] at hd
    rcases hd with rfl | hd
    · simp only [decide_eq_true_eq]
      exact (hprobe d).1
    · rcases hd with rfl | hd
      · simp only [decide_eq_true_eq]
        exact (hprobe d).2
      · cases hd
  rw [hfind]

/-- Witness for C4's amended theorem at the concrete project
`/proj/{m.py, a.py}`: resolving the already-resolved path `/proj/m.py`
again returns `None`. -/
theorem resolve_import_of_path_none_witness :
    resolve_import mtfX ftmX ["proj"] fsX "/proj/m.py" "/proj/a.py" = none :=
  resolve_import_of_path_none mtfX ftmX ["proj"] fsX "/proj/m.py" "/proj/a.py"
    (by decide)
    (by decide)
    (by
      intro d
      constructor
      · show joinPath d ("/proj/m.py" ++ ".py") ∉ fsX
        unfold joinPath
        rw [if_pos (by decide)]
        decide
      · show joinPath (joinPath d "/proj/m.py") "__init__.py" ∉ fsX
        unfold joinPath
        rw [if_neg (by decide), if_pos (by decide)]
        decide)

/-! ## AST parser cache (`src/parser/ast_parser.py`)

`parse_file` resolves the argument to a `Path` object and then tests
`if file_path in self.parsed_files`, but every insertion into
`self.parsed_files` uses the *string* key `str(file_path)`.  A
`pathlib.Path` never compares equal to a `str`, so the dict keys are
modelled as a sum of the two Python types and the membership test is
embedded exactly as written.  Reading and parsing are abstract parameters
(`read`, `parseAst`, with `none` standing for the caught
`FileNotFoundError`/`UnicodeDecodeError` resp. `SyntaxError`), and the
state counts how many times the file was opened. -/

/-- A Python dict key that is either a `str` or a `pathlib.Path`; the two
are never equal, mirroring `PosixPath.__eq__(str) == False`. -/
inductive PyKey where
  | pstr (s : String)
  | ppath (p : List String)
deriving DecidableEq

/-- Dict lookup over `PyKey`-keyed association lists. -/
def lookupK {α : Type} : List (PyKey × α) → PyKey → Option α
  | [], _ => none
  | (k0, v) :: d, k => if k0 = k then some v else lookupK d k

/-- Dict update over `PyKey`-keyed association lists. -/
def setK {α : Type} : List (PyKey × α) → PyKey → α → List (PyKey × α)
  | [], k, v => [(k, v)]
  | (k0, v0) :: d, k, v =>
      if k0 = k then (k0, v) :: d else (k0, v0) :: setK d k v

/-- One extracted import reference `(import_name, line, import_type)`. -/
def ImportRef : Type := String × Nat × String

/-- State of an `ASTParser`: the four caches plus a count of how many
times a file was opened for reading (not part of the Python object; it
makes the re-read observable). -/
structure ParserSt (T : Type) where
  parsed_files : List (PyKey × T)
  file_imports : List (String × List ImportRef)
  file_exports : List (String × Finset String)
  file_lines : List (String × Nat)
  reads : Nat

/-- Source `ASTParser.parse_file`: resolve the path, test the cache with the
`Path` object (against `str` keys — the test as written), otherwise open
and parse the file, fill the caches under the `str` key, and return the
tree; parse and read failures are caught and yield `None`. -/
def parse_file {T : Type} (read : String → Option String)
    (parseAst : String → Option T) (extractImports : T → List ImportRef)
    (extractExports : T → Finset String) (countLines : String → Nat)
    (st : ParserSt T) (file_path : String) : Option T × ParserSt T :=
  let p := parseAbs file_path
  if (lookupK st.parsed_files (PyKey.ppath p)).isSome then
    (lookupK st.parsed_files (PyKey.pstr (pathStr p)), st)
  else
    match read (pathStr p) with
    | none => (none, { st with reads := st.reads + 1 })
    | some content =>
        match parseAst content with
        | none => (none, { st with reads := st.reads + 1 })
        | some tree =>
            (some tree,
             { st with
               parsed_files := setK st.parsed_files (PyKey.pstr (pathStr p)) tree
               file_imports :=
                 setD st.file_imports (pathStr p) (extractImports tree)
               file_exports :=
                 setD st.file_exports (pathStr p) (extractExports tree)
               file_lines := setD st.file_lines (pathStr p) (countLines content)
               reads := st.reads + 1 })

/-- A one-file model file system holding `/p/f.py`. -/
def readX : String → Option String :=
  fun s => if s = "/p/f.py" then some "x = 1" else none

/-- A parser that accepts every content (tree type `Unit`). -/
def parseX : String → Option Unit := fun _ => some ()

/-- A freshly constructed `ASTParser` (`__init__`). -/
def emptyPSt : ParserSt Unit := ⟨[], [], [], [], 0⟩

/-- One `parse_file` call on `/p/f.py` against the model file system. -/
def callOnce (st : ParserSt Unit) : Option Unit × ParserSt Unit :=
  parse_file readX parseX (fun _ => []) (fun _ => ∅) (fun _ => 1) st "/p/f.py"

/-- C5: after a first successful `parse_file("/p/f.py")` the tree *is*
stored under the string key, yet the membership test the code performs —
the `Path` object against the string-keyed dict — still misses, so a
second call opens and parses the file again (the read count reaches 2)
instead of returning the cached tree without re-reading. -/
theorem parse_file_reparses_on_second_call :
    (callOnce emptyPSt).1 = some () ∧
    (callOnce emptyPSt).2.reads = 1 ∧
    lookupK (callOnce emptyPSt).2.parsed_files (PyKey.pstr "/p/f.py") = some () ∧
    lookupK (callOnce emptyPSt).2.parsed_files
      (PyKey.ppath (parseAbs "/p/f.py")) = none ∧
    (callOnce (callOnce emptyPSt).2).1 = some () ∧
    (callOnce (callOnce emptyPSt).2).2.reads = 2 := by
  decide

/-! ## Dynamic-import detector (`src/parser/dynamic_import_detector.py`)

The scan inspects, per walked AST node, only whether it is a call, the
shape of its callee (a name, or an attribute access whose namespace is a
name), and the identifiers involved; the node model captures exactly
that, and a tree is its node list in walk order (`ast.walk` always yields
at least one node, the `Module` root, so a real walk stream is never
empty).  The loop body runs two blocks guarded by
`isinstance(node, ast.Call)` and then a third block that tests
`isinstance(node, (ast.Exec, ast.Call))`.  `ast.Exec` is a Python-2-only
node class: under Python 3, evaluating the name itself raises
`AttributeError`, so the third block raises on every iteration — the walk
dies at its first node, the local issue list is discarded with the
exception, and the `self.dynamic_imports[file_path] = issues` write is
never reached. -/

/-- Namespace expression of an attribute callee (`node.func.value`). -/
inductive ValExpr where
  | nameV (id : String)
  | otherV
deriving DecidableEq

/-- Callee of a call node (`node.func`). -/
inductive FuncExpr where
  | nameF (id : String)
  | attrF (value : ValExpr) (attr : String)
  | otherF
deriving DecidableEq

/-- A walked AST node, as far as the scan inspects it. -/
inductive PyNode where
  | callN (func : FuncExpr) (lineno : Nat)
  | otherN
deriving DecidableEq

/-- One recorded site `(line, pattern, reason)`. -/
abbrev DynIssue := Nat × String × String

/-- The issues the two `isinstance(node, ast.Call)` blocks of the walk
loop append for one node, in source order: the unconditional
`__import__`-attribute branch of the first block, then the
namespace-checked `import_module`/`__import__` branches of the second. -/
def scanCallBlocks : PyNode → List DynIssue
  | .callN f line =>
      (match f with
       | .nameF id =>
           if id = "__import__" then
             [(line, "__import__()", "Direct __import__() call - dynamic import")]
           else []
       | .attrF _ attr =>
           if attr = "__import__" then
             [(line, "builtins.__import__()", "Dynamic import via builtins.__import__()")]
           else []
       | .otherF => []) ++
      (match f with
       | .attrF v attr =>
           if attr = "import_module" then
             match v with
             | .nameV "importlib" =>
                 [(line, "importlib.import_module()",
                   "Dynamic import via importlib.import_module()")]
             | _ => []
           else if attr = "__import__" then
             match v with
             | .nameV "builtins" =>
                 [(line, "builtins.__import__()",
                   "Dynamic import via builtins.__import__()")]
             | _ => []
           else []
       | _ => [])
  | .otherN => []

/-- Message of the exception Python 3 raises when the third block
evaluates `ast.Exec`. -/
def astExecError : String := "module 'ast' has no attribute 'Exec'"

/-- The third block of the walk loop.  Its guard
`isinstance(node, (ast.Exec, ast.Call))` first evaluates the tuple
`(ast.Exec, ast.Call)`, and `ast.Exec` does not exist in Python 3, so the
block raises `AttributeError` for every node before any `isinstance` test
can run. -/
def scanExecBlock (_node : PyNode) : Except String (List DynIssue) :=
  Except.error astExecError

/-- The walk loop of `detect_dynamic_imports`: per node, append the
call-block issues, then run the third block; its exception aborts the
whole walk, discarding the accumulated list. -/
def walkIssues : List DynIssue → List PyNode → Except String (List DynIssue)
  | issues, [] => Except.ok issues
  | issues, node :: rest =>
      let issues2 := issues ++ scanCallBlocks node
      match scanExecBlock node with
      | Except.error e => Except.error e
      | Except.ok i3 => walkIssues (issues2 ++ i3) rest

/-- State of a `DynamicImportDetector`: the `dynamic_imports` dict. -/
structure DynSt where
  dynamic_imports : List (String × List DynIssue)

/-- Source `DynamicImportDetector.detect_dynamic_imports` under Python 3:
walk the tree collecting issues, storing them under the file only when
non-empty; an exception escaping the walk propagates to the caller and
leaves the object's dict as it was, since the write comes after the
loop. -/
def detect_dynamic_imports (st : DynSt) (file_path : String)
    (tree : List PyNode) : Except String (List DynIssue) × DynSt :=
  match walkIssues [] tree with
  | Except.error e => (Except.error e, st)
  | Except.ok issues =>
      (Except.ok issues,
       if issues ≠ [] then ⟨setD st.dynamic_imports file_path issues⟩ else st)

/-- C8: a call whose callee is the attribute access `x.__import__` with a
namespace `x` other than `builtins` produces no recorded dynamic-import
site.  Under Python 3 this holds for every run containing such a call:
the walk raises `AttributeError` at its very first node — evaluating
`ast.Exec` in the third block — before any site can be stored, so
`detect_dynamic_imports` returns the error and leaves the
`dynamic_imports` dict unchanged. -/
theorem dynamic_import_no_site_for_other_namespace (st : DynSt) (fp : String)
    (tree : List PyNode) (v : ValExpr) (line : Nat)
    (hmem : PyNode.callN (FuncExpr.attrF v "__import__") line ∈ tree)
    (_hv : v ≠ ValExpr.nameV "builtins") :
    (detect_dynamic_imports st fp tree).1 = Except.error astExecError ∧
    (detect_dynamic_imports st fp tree).2.dynamic_imports = st.dynamic_imports := by
  rcases tree with _ | ⟨node, rest⟩
  · cases hmem
  · exact ⟨rfl, rfl⟩

/-- Witness for C8: the one-call tree `foo.__import__("m")` at line 1 —
namespace `foo`, not `builtins` — on a fresh detector. -/
theorem dynamic_import_no_site_for_other_namespace_witness :
    (detect_dynamic_imports ⟨[]⟩ "m.py"
        [PyNode.callN (FuncExpr.attrF (ValExpr.nameV "foo") "__import__") 1]).1 =
      Except.error astExecError ∧
    (detect_dynamic_imports ⟨[]⟩ "m.py"
        [PyNode.callN (FuncExpr.attrF (ValExpr.nameV "foo") "__import__") 1]).2.dynamic_imports =
      ([] : List (String × List DynIssue)) :=
  dynamic_import_no_site_for_other_namespace ⟨[]⟩ "m.py"
    [PyNode.callN (FuncExpr.attrF (ValExpr.nameV "foo") "__import__") 1]
    (ValExpr.nameV "foo") 1 (by decide) (by decide)

/-! ## Split suggester (`src/split_suggester.py`)

A module's syntax tree enters the heuristics only through its top-level
statement list, partitioned by kind; a top-level definition is modelled by
its kind and name.  The greedy `used`-set grouping loops of
`_group_functions`/`_group_classes` — each unassigned definition seeds a
group that absorbs every later unassigned definition matching the seed's
predicate — are embedded in the equivalent seed-and-filter form. -/

/-- A top-level statement of a module body, as far as the suggester looks
at it: a class, a (possibly async) function, an assignment, or anything
else. -/
inductive TopDef where
  | classD (name : String)
  | funcD (name : String)
  | assignD
  | otherD
deriving DecidableEq

/-- Python `str.lower()` (over the ASCII identifiers involved). -/
def lowerStr (s : String) : String := String.mk (s.data.map Char.toLower)

/-- Source `SplitSuggester._get_prefix`: the part before the first underscore,
or `''` when the name has no underscore. -/
def prefixOfName (name : String) : String :=
  let parts := strSplit '_' name
  if parts.length > 1 then parts.headD "" else ""

/-- Source `SplitSuggester._common_prefix` over character lists. -/
def commonPrefixAux : List Char → List Char → Nat
  | a :: as, b :: bs => if a = b then commonPrefixAux as bs + 1 else 0
  | _, _ => 0

/-- Source `SplitSuggester._common_prefix`: length of the common prefix. -/
def commonPrefixLen (s1 s2 : String) : Nat := commonPrefixAux s1.data s2.data

/-- Source `SplitSuggester._group_functions` over the (lowercased) names: a seed
with a non-empty prefix of length at least 3 absorbs all later functions
sharing that prefix; otherwise it forms a singleton group.  The fuel is
the list length, which the recursion never exhausts. -/
def groupFuncsAux : Nat → List String → List (List String)
  | _, [] => []
  | 0, _ => []
  | fuel + 1, f :: rest =>
      let p := prefixOfName (lowerStr f)
      if p ≠ "" ∧ p.length ≥ 3 then
        (f :: rest.filter (fun g => prefixOfName (lowerStr g) = p)) ::
          groupFuncsAux fuel (rest.filter (fun g => ¬ prefixOfName (lowerStr g) = p))
      else
        [f] :: groupFuncsAux fuel rest

/-- Source `SplitSuggester._group_classes`: a seed absorbs all later classes
whose lowercased name shares a common prefix of length at least 3 with
its own. -/
def groupClassesAux : Nat → List String → List (List String)
  | _, [] => []
  | 0, _ => []
  | fuel + 1, c :: rest =>
      (c :: rest.filter
          (fun d => commonPrefixLen (lowerStr c) (lowerStr d) ≥ 3)) ::
        groupClassesAux fuel (rest.filter
          (fun d => ¬ commonPrefixLen (lowerStr c) (lowerStr d) ≥ 3))

/-- Source `SplitSuggester._group_by_imports`: the placeholder stub — it returns
the constant single group `[set()]` whatever the file and tree are. -/
def group_by_imports (_file_path : String) (_tree : List TopDef) :
    List (Finset String) :=
  [∅]

/-- One suggestion record (`type`, `reason`, `recommendation`, and the
optional `groups` count). -/
structure Suggestion where
  stype : String
  reason : String
  recommendation : String
  groups : Option Nat
deriving DecidableEq

/-- Source `SplitSuggester._analyze_for_splits`: partition the top-level body
into classes, functions and assignments, then apply the four heuristics
in source order.  (The collected assignments are never read by any
heuristic.) -/
def analyze_for_splits (file_path : String) (tree : List TopDef)
    (min_functions : Nat) : List Suggestion :=
  let classes := tree.filterMap
    (fun d => match d with | .classD n => some n | _ => none)
  let functions := tree.filterMap
    (fun d => match d with | .funcD n => some n | _ => none)
  (if classes.length ≥ 3 then
    let class_groups := groupClassesAux classes.length classes
    if class_groups.length > 1 then
      [⟨"class_grouping",
        "Module has " ++ toString classes.length ++ " classes that could be grouped",
        "Split into separate modules by class groups",
        some class_groups.length⟩]
    else []
   else []) ++
  (if functions.length ≥ min_functions then
    let function_groups := groupFuncsAux functions.length functions
    if function_groups.length > 1 then
      [⟨"function_grouping",
        "Module has " ++ toString functions.length ++ " functions that could be grouped",
        "Split into separate modules by function groups",
        some function_groups.length⟩]
    else []
   else []) ++
  (if (group_by_imports file_path tree).length > 1 then
    [⟨"import_grouping",
      "Functions/classes use different import sets",
      "Split modules based on import dependencies",
      some (group_by_imports file_path tree).length⟩]
   else []) ++
  (if classes.length = 0 ∧ functions.length ≥ 15 then
    [⟨"utility_split",
      "Large utility module with " ++ toString functions.length ++ " functions",
      "Consider splitting into domain-specific utility modules",
      none⟩]
   else [])

/-- Source `SplitSuggester.suggest_splits`: for every graph node (in enumeration
order) of at least `min_lines` lines whose parsed tree is present, run the
heuristics and record the non-empty suggestion lists. -/
def suggest_splits (nodes : List String) (lineCount : String → Nat)
    (trees : String → Option (List TopDef)) (min_lines min_functions : Nat) :
    List (String × List Suggestion) :=
  nodes.foldl
    (fun acc file_path =>
      if lineCount file_path < min_lines then acc
      else
        match trees file_path with
        | none => acc
        | some tree =>
            let suggestions := analyze_for_splits file_path tree min_functions
            if suggestions ≠ [] then acc ++ [(file_path, suggestions)] else acc)
    []

/-- The file `suggest_splits` emits at least one suggestion of type `t`
for `f`. -/
def emitsType (out : List (String × List Suggestion)) (f t : String) : Prop :=
  t ∈ ((lookupD out f).getD []).map Suggestion.stype

/-- The 15 top-level functions `parse_a` … `parse_o` of the C7 fixture. -/
def utilsTree : List TopDef :=
  [TopDef.funcD "parse_a", TopDef.funcD "parse_b", TopDef.funcD "parse_c",
   TopDef.funcD "parse_d", TopDef.funcD "parse_e", TopDef.funcD "parse_f",
   TopDef.funcD "parse_g", TopDef.funcD "parse_h", TopDef.funcD "parse_i",
   TopDef.funcD "parse_j", TopDef.funcD "parse_k", TopDef.funcD "parse_l",
   TopDef.funcD "parse_m", TopDef.funcD "parse_n", TopDef.funcD "parse_o"]

/-- The C7 fixture project: the single 400-line file `utils.py` with the
15 `parse_*` functions, analysed with the default thresholds. -/
def utilsOut : List (String × List Suggestion) :=
  suggest_splits ["utils.py"] (fun _ => 400)
    (fun f => if f = "utils.py" then some utilsTree else none) 300 10

/-- C7 counterexample: on the fixture, `suggest_splits` does *not* emit a
`function_grouping` suggestion — all 15 functions share the single prefix
group `parse`, so `_group_functions` returns one group and the
`> 1 group` condition fails — refuting the claim that both suggestion
types are emitted. -/
theorem suggest_splits_claim_counterexample :
    ¬ (emitsType utilsOut "utils.py" "function_grouping" ∧
       emitsType utilsOut "utils.py" "utility_split") := by
  unfold emitsType
  decide

/-- C7 (amended): on the fixture the emitted suggestion list for
`utils.py` is exactly one `utility_split` record; a `utility_split` is
emitted and a `function_grouping` is not, since grouping the 15 functions
by the token before the first underscore yields the single group
`parse`. -/
theorem suggest_splits_parse_fixture :
    utilsOut =
      [("utils.py",
        [⟨"utility_split",
          "Large utility module with 15 functions",
          "Consider splitting into domain-specific utility modules",
          none⟩])] ∧
    emitsType utilsOut "utils.py" "utility_split" ∧
    ¬ emitsType utilsOut "utils.py" "function_grouping" ∧
    (groupFuncsAux 15
      (utilsTree.filterMap
        (fun d => match d with | .funcD n => some n | _ => none))).length = 1 := by
  unfold emitsType
  decide

theorem mem_of_mem_ite_nil {α : Type} {c : Prop} [Decidable c] {X : List α}
    {r : α} (h : r ∈ (if c then X else [])) : r ∈ X := by
  by_cases hc : c
  · rwa [if_pos hc] at h
  · rw [if_neg hc] at h
    cases h

theorem analyze_for_splits_no_import_grouping (fp : String) (tree : List TopDef)
    (mf : Nat) :
    ∀ r ∈ analyze_for_splits fp tree mf, r.stype ≠ "import_grouping" := by
  intro r hr
  unfold analyze_for_splits at hr
  simp only [List.mem_append] at hr
  rcases hr with ((h | h) | h) | h
  · have h2 := mem_of_mem_ite_nil (mem_of_mem_ite_nil h)
    rw [List.mem_singleton] at h2
    subst h2
    exact (by decide : ("class_grouping" : String) ≠ "import_grouping")
  · have h2 := mem_of_mem_ite_nil (mem_of_mem_ite_nil h)
    rw [List.mem_singleton] at h2
    subst h2
    exact (by decide : ("function_grouping" : String) ≠ "import_grouping")
  · simp [group_by_imports] at h
  · have h2 := mem_of_mem_ite_nil h
    rw [List.mem_singleton] at h2
    subst h2
    exact (by decide : ("utility_split" : String) ≠ "import_grouping")

/-- C9: for every project, every enumeration order, every line-count and
tree assignment and every choice of `min_lines`/`min_functions`,
`suggest_splits` never emits a suggestion of type `import_grouping`: the
import-usage grouping `_group_by_imports` returns the constant single
group `[set()]`, so its `> 1 group` condition never fires. -/
theorem suggest_splits_never_import_grouping (nodes : List String)
    (lineCount : String → Nat) (trees : String → Option (List TopDef))
    (min_lines min_functions : Nat) :
    ∀ entry ∈ suggest_splits nodes lineCount trees min_lines min_functions,
      ∀ r ∈ entry.2, r.stype ≠ "import_grouping" := by
  unfold suggest_splits
  suffices h : ∀ (acc : List (String × List Suggestion)),
      (∀ entry ∈ acc, ∀ r ∈ entry.2, r.stype ≠ "import_grouping") →
      ∀ entry ∈ nodes.foldl
        (fun acc file_path =>
          if lineCount file_path < min_lines then acc
          else
            match trees file_path with
            | none => acc
            | some tree =>
                let suggestions := analyze_for_splits file_path tree min_functions
                if suggestions ≠ [] then acc ++ [(file_path, suggestions)] else acc)
        acc,
      ∀ r ∈ entry.2, r.stype ≠ "import_grouping" by
    exact h [] (fun entry he => absurd he (List.not_mem_nil entry))
  induction nodes with
  | nil =>
      intro acc hacc entry he
      exact hacc entry he
  | cons node rest ih =>
      intro acc hacc entry he
      rw [List.foldl_cons] at he
      refine ih _ ?_ entry he
      intro e2 he2
      by_cases h1 : lineCount node < min_lines
      · rw [if_pos h1] at he2
        exact hacc e2 he2
      · rw [if_neg h1] at he2
        rcases ht : trees node with _ | tree
        · rw [ht] at he2
          exact hacc e2 he2
        · rw [ht] at he2
          simp only at he2
          by_cases h2 : analyze_for_splits node tree min_functions ≠ []
          · rw [if_pos h2] at he2
            rcases List.mem_append.mp he2 with h3 | h3
            · exact hacc e2 h3
            · rw [List.mem_singleton] at h3
              subst h3
              exact analyze_for_splits_no_import_grouping node tree min_functions
          · rw [if_neg h2] at he2
            exact hacc e2 he2

/-- Witness for C9 on the C7 fixture: the one suggestion emitted for
`utils.py` there is not an `import_grouping`. -/
theorem suggest_splits_never_import_grouping_witness :
    (Suggestion.mk "utility_split"
      "Large utility module with 15 functions"
      "Consider splitting into domain-specific utility modules"
      none).stype ≠ "import_grouping" :=
  suggest_splits_never_import_grouping ["utils.py"] (fun _ => 400)
    (fun f => if f = "utils.py" then some utilsTree else none) 300 10
    ("utils.py",
      [Suggestion.mk "utility_split"
        "Large utility module with 15 functions"
        "Consider splitting into domain-specific utility modules"
        none])
    (by decide)
    (Suggestion.mk "utility_split"
      "Large utility module with 15 functions"
      "Consider splitting into domain-specific utility modules"
      none)
    (by decide)

end DepViz
